import Mathlib

/-!
Verification of the Muon optimizer core of `nanogpt/train_spectral_normalize.py`
(orthogonalized momentum-SGD with a spectral-norm cap), against its
natural-language specification.

The shallow embedding models:
* `orthogonalize` (the quintic Newton-Schulz-style fixed-point iteration),
* `_power_iteration` (power-iteration estimate of the top singular value),
* the momentum buffer update inside `Muon.step`,
* the distributed update scheduler of `Muon.step` (shard round-robin,
  gather/apply event ordering, buffer-slice application),
* the NaN-propagation behaviour of the scale-down factor (floats with a
  NaN element are modelled as `Option ℝ` with `none` = NaN).

Matrices are real matrices `Matrix (Fin m) (Fin n) ℝ`; the reduced-precision
(bfloat16) casts of the source are modelled as the identity, per the spec's
scope note that rounding behaviour of a specific numeric kernel is out of
scope.
-/

namespace Spec2Proof

open Matrix

/-! ## Matrix orthogonalizer (source: `orthogonalize`, lines 137-165) -/

/-- Squared Frobenius norm of a matrix. -/
noncomputable def frobeniusNormSq {m n : ℕ} (M : Matrix (Fin m) (Fin n) ℝ) : ℝ :=
  ∑ i, ∑ j, (M i j) ^ 2

/-- Frobenius norm, `X.norm(dim=(-2,-1))` in the source. -/
noncomputable def frobeniusNorm {m n : ℕ} (M : Matrix (Fin m) (Fin n) ℝ) : ℝ :=
  Real.sqrt (frobeniusNormSq M)

/-- Source line 157: `X = X / (X.norm(dim=(-2, -1), keepdim=True) + 1e-7)`. -/
noncomputable def nsNormalize {m n : ℕ} (M : Matrix (Fin m) (Fin n) ℝ) : Matrix (Fin m) (Fin n) ℝ :=
  (1 / (frobeniusNorm M + 1e-7)) • M

/-- One quintic iteration step, source lines 159-161:
`A = X @ X.mT; B = b * A + c * A @ A; X = a * X + B @ X`. -/
noncomputable def nsStep {m n : ℕ} (a b c : ℝ) (X : Matrix (Fin m) (Fin n) ℝ) : Matrix (Fin m) (Fin n) ℝ :=
  a • X + (b • (X * Xᵀ) + c • ((X * Xᵀ) * (X * Xᵀ))) * X

/-- The coefficient table `abc_list` of `orthogonalize` (source lines 140-152). -/
noncomputable def abcList : List (ℝ × ℝ × ℝ) :=
  [(4.0848, -6.8946, 2.9270),
   (3.9505, -6.3029, 2.6377),
   (3.7418, -5.5913, 2.3037),
   (2.8769, -3.1427, 1.2046),
   (2.8366, -3.0525, 1.2012)]

/-- The loop `for a, b, c in abc_list` of `orthogonalize`. -/
noncomputable def nsIterate {m n : ℕ} (X : Matrix (Fin m) (Fin n) ℝ) : Matrix (Fin m) (Fin n) ℝ :=
  abcList.foldl (fun Y t => nsStep t.1 t.2.1 t.2.2 Y) X

/-- Normalization followed by the quintic iterations (the body of
`orthogonalize` after the orientation choice). -/
noncomputable def orthogonalizeCore {m n : ℕ} (M : Matrix (Fin m) (Fin n) ℝ) : Matrix (Fin m) (Fin n) ℝ :=
  nsIterate (nsNormalize M)

/-- Source `orthogonalize` (lines 137-165): transpose to the wide orientation
when `rows > cols`, normalize by Frobenius norm + 1e-7, run the five quintic
steps, transpose back. The bfloat16 cast is modelled as the identity. -/
noncomputable def orthogonalize {m n : ℕ} (M : Matrix (Fin m) (Fin n) ℝ) : Matrix (Fin m) (Fin n) ℝ :=
  if n < m then (orthogonalizeCore Mᵀ)ᵀ else orthogonalizeCore M

/-- The algorithm exactly as the spec describes it (section 4.1): transpose if
rows > cols, divide by (Frobenius norm + ε), apply the fixed sequence of five
quintic steps `A = X Xᵀ; B = bA + cA²; X = aX + BX` with the precomputed
scalar coefficient triples, and restore the orientation at the end. -/
noncomputable def orthogonalizeSpec {m n : ℕ} (M : Matrix (Fin m) (Fin n) ℝ) : Matrix (Fin m) (Fin n) ℝ :=
  if n < m then
    (nsStep 2.8366 (-3.0525) 1.2012
      (nsStep 2.8769 (-3.1427) 1.2046
        (nsStep 3.7418 (-5.5913) 2.3037
          (nsStep 3.9505 (-6.3029) 2.6377
            (nsStep 4.0848 (-6.8946) 2.9270 (nsNormalize Mᵀ))))))ᵀ
  else
    nsStep 2.8366 (-3.0525) 1.2012
      (nsStep 2.8769 (-3.1427) 1.2046
        (nsStep 3.7418 (-5.5913) 2.3037
          (nsStep 3.9505 (-6.3029) 2.6377
            (nsStep 4.0848 (-6.8946) 2.9270 (nsNormalize M)))))

/-- σ is a singular value of `M` when σ ≥ 0 and σ² is an eigenvalue of `MᵀM`. -/
def IsSingularValue {m n : ℕ} (M : Matrix (Fin m) (Fin n) ℝ) (σ : ℝ) : Prop :=
  0 ≤ σ ∧ ∃ v : Fin n → ℝ, v ≠ 0 ∧ (Mᵀ * M) *ᵥ v = (σ ^ 2) • v

/-! ## Shape behaviour of `orthogonalize` (claim C9)

The first operations of `orthogonalize` that constrain the input's
dimensionality are the reads `X.shape[-2]` and `X.shape[-1]` (source line
154); a Python negative index `s[-k]` on a shape tuple of length `ndim`
raises `IndexError` iff `ndim < k`.  All later operations (`.mT`,
`norm(dim=(-2,-1))`, `@`) accept any `ndim ≥ 2`, including batched inputs. -/

/-- Python `s[-k]` on a tuple `s`: `some` entry, or `none` = IndexError. -/
def pyNegIdx (s : List ℕ) (k : ℕ) : Option ℕ :=
  if k ≤ s.length then s[s.length - k]? else none

/-- Shape-level behaviour of `orthogonalize`: reading `shape[-2]` and
`shape[-1]` must succeed, after which the result has the input's shape.
`none` models an uncaught Python exception. -/
def orthogonalizeShape (s : List ℕ) : Option (List ℕ) :=
  match pyNegIdx s 2, pyNegIdx s 1 with
  | some _, some _ => some s
  | _, _ => none

/-! ## Momentum store (claim C6; source `Muon.step` lines 286-292)

`buf.lerp_(g, 1 - momentum)` followed by
`g.lerp_(buf, momentum) if nesterov else buf`, with the buffer lazily
initialized to zeros.  Torch `x.lerp_(y, w)` is `x + w * (y - x)`. -/

/-- Torch `x.lerp_(y, w) = x + w*(y-x)`, entrywise on matrices. -/
noncomputable def lerp {m n : ℕ} (x y : Matrix (Fin m) (Fin n) ℝ) (w : ℝ) : Matrix (Fin m) (Fin n) ℝ :=
  x + w • (y - x)

/-- The momentum update of `Muon.step`: `state` is the stored buffer (`none`
before the first step, when the source creates `torch.zeros_like(g)`);
returns (new buffer, effective update handed to `orthogonalize`). -/
noncomputable def muonMomentum {m n : ℕ} (momentum : ℝ) (nesterov : Bool)
    (state : Option (Matrix (Fin m) (Fin n) ℝ)) (g : Matrix (Fin m) (Fin n) ℝ) :
    Matrix (Fin m) (Fin n) ℝ × Matrix (Fin m) (Fin n) ℝ :=
  let buf := state.getD 0
  let buf' := lerp buf g (1 - momentum)
  (buf', if nesterov then lerp g buf' momentum else buf')

/-! ## Distributed update scheduler (claims C1, C7, C8, C10)

`Muon.step` (source lines 255-299), for one parameter group of `n`
parameters on `w` devices: the loop `for base_i in range(len(params))[::w]`
runs over the shard bases `0, w, 2w, ...`; each device computes an update
(or takes its stale gather-buffer slot as placeholder when
`base_i + rank ≥ n`), calls `update_prev()` when `base_i > 0`, issues the
async all-gather, and after the loop flushes the last `update_prev()`. -/

/-- The shard bases visited by `range(len(params))[::world_size]`:
`0, w, 2w, ...` below `n` — `⌈n/w⌉` of them. -/
def muonShards (n w : ℕ) : List ℕ :=
  (List.range ((n + w - 1) / w)).map (fun k => k * w)

/-- The last shard base, `w * ((n-1) / w)` for a nonempty group. -/
def muonLastShard (n w : ℕ) : ℕ := ((n - 1) / w) * w

/-- Scheduler events of one `Muon.step` over one group: issuing the
asynchronous all-gather for the shard with base `i`, and awaiting/applying
the gather of the shard with base `i` (`update_prev`). -/
inductive MuonEvent where
  | gather (i : ℕ)
  | apply (i : ℕ)
deriving DecidableEq

/-- The loop of `Muon.step` as an event trace.  `pending` is the shard base
whose gather handle is outstanding (`handle`/`params_world` in the source,
`none` before the first gather).  `update_prev` with no pending handle is a
crash (`handle.wait()` on `None`), modelled as `none`. -/
def muonLoop : List ℕ → Option ℕ → Option (List MuonEvent)
  | [], pending =>
    -- after the loop: the final `update_prev()` (source line 299)
    match pending with
    | none => none
    | some p => some [MuonEvent.apply p]
  | b :: rest, pending =>
    -- `if base_i > 0: update_prev()` then `handle = dist.all_gather_into_tensor(...)`
    let pre : Option (List MuonEvent) :=
      if 0 < b then
        match pending with
        | none => none
        | some p => some [MuonEvent.apply p]
      else some []
    match pre, muonLoop rest (some b) with
    | some es, some tail => some (es ++ MuonEvent.gather b :: tail)
    | _, _ => none

/-- The event trace of one `Muon.step` for a group of `n` parameters on `w`
devices. -/
def muonStepTrace (n w : ℕ) : Option (List MuonEvent) :=
  muonLoop (muonShards n w) none

/-- Expected shape of the trace after the first gather: an alternation
`apply prev, gather b, ...` closed by the final flushed apply. -/
def muonChain (p : ℕ) : List ℕ → List MuonEvent
  | [] => [MuonEvent.apply p]
  | b :: rest => MuonEvent.apply p :: MuonEvent.gather b :: muonChain b rest

/-- `x` occurs strictly before `y` in the list `tr`. -/
def Precedes (x y : MuonEvent) (tr : List MuonEvent) : Prop :=
  ∃ i j : ℕ, i < j ∧ tr.get? i = some x ∧ tr.get? j = some y

/-- The shard index of a gather event. -/
def gatherIdx : MuonEvent → Option ℕ
  | MuonEvent.gather i => some i
  | MuonEvent.apply _ => none

/-- The shard index of an apply event. -/
def applyIdx : MuonEvent → Option ℕ
  | MuonEvent.gather _ => none
  | MuonEvent.apply i => some i

/-- The (shard base, device rank) pairs at which a parameter update is
computed: at shard base `b`, device `rank` computes the update of parameter
`b + rank` when `b + rank < n` (source line 282). -/
def muonPairs (n w : ℕ) : List (ℕ × ℕ) :=
  (muonShards n w).flatMap
    (fun b => (List.range w).filterMap
      (fun r => if b + r < n then some (b, r) else none))

/-- The buffer a device contributes to the all-gather at shard base `b`
(source lines 282-294): its computed orthogonalized update when
`b + rank < n`, else its own (stale) slot `update_buffer_views[rank]` of the
gather buffer. -/
def muonContribution {α : Type} (n : ℕ) (rank b : ℕ) (bufferView computed : α) : α :=
  if b + rank < n then computed else bufferView

/-- The APPLY phase of `update_prev` (source lines 264-280) at the list
level: `params_world = params[base_i : base_i + world_size]` (a Python slice,
truncating at the end of the list) is zipped against the `world_size` gather
buffer views, and each paired parameter is replaced by `f` of the pair.
Parameters outside the slice are untouched. -/
def muonApplySlice {α β : Type} (f : α → β → α)
    (params : List α) (views : List β) (b : ℕ) : List α :=
  let paramsWorld := (params.drop b).take views.length
  let applied := (paramsWorld.zip views).map (fun pg => f pg.1 pg.2)
  params.take b ++ applied ++ params.drop (b + (paramsWorld.zip views).length)

/-! ## NaN propagation in the spectral cap (claim C5)

Source lines 276-280.  A float that is NaN (or an Inf that a subsequent
operation turns into NaN) is modelled as `none : Option ℝ`; torch's
`maximum`, `add`, and `div` all propagate NaN. -/

/-- NaN-propagating addition. -/
noncomputable def fAdd : Option ℝ → Option ℝ → Option ℝ
  | some x, some y => some (x + y)
  | _, _ => none

/-- NaN-propagating division (a NaN operand yields NaN). -/
noncomputable def fDiv : Option ℝ → Option ℝ → Option ℝ
  | some x, some y => some (x / y)
  | _, _ => none

/-- NaN-propagating `torch.maximum`. -/
noncomputable def fMax : Option ℝ → Option ℝ → Option ℝ
  | some x, some y => some (max x y)
  | _, _ => none

/-- Source line 277:
`scale_down = torch.maximum(torch.tensor(1.0), sigma_max / (w_max*scale))`;
the clamp `if torch.isnan(scale_down): scale_down = 1` exists only as
commented-out code (lines 278-279) and is therefore absent here. -/
noncomputable def muonScaleDown (sigmaMax : Option ℝ) (wMaxScale : ℝ) : Option ℝ :=
  fMax (some 1) (fDiv sigmaMax (some wMaxScale))

/-- Source line 280: `p_world.div_(scale_down + 1e-12)`, entrywise on one
parameter entry. -/
noncomputable def muonRescaleEntry (p : ℝ) (scaleDown : Option ℝ) : Option ℝ :=
  fDiv (some p) (fAdd scaleDown (some 1e-12))

/-! ## Power iteration and the APPLY phase (claim C2)

Source `_power_iteration` (lines 208-218) and the per-parameter body of
`update_prev` (lines 266-280, NaN-free path). -/

/-- Euclidean norm of a vector (torch `u.norm()`). -/
noncomputable def vecNorm {k : ℕ} (u : Fin k → ℝ) : ℝ :=
  Real.sqrt (∑ i, u i ^ 2)

/-- One iteration of `_power_iteration` (source lines 214-216):
`v = u @ M; u = v @ M.t(); u = u / (u.norm() + 1e-8)`. -/
noncomputable def powerIterStep {r c : ℕ} (M : Matrix (Fin r) (Fin c) ℝ)
    (u : Fin r → ℝ) : Fin r → ℝ :=
  let v := u ᵥ* M
  let u2 := v ᵥ* Mᵀ
  (1 / (vecNorm u2 + 1e-8)) • u2

/-- The iterated power steps. -/
noncomputable def powerIterate {r c : ℕ} (M : Matrix (Fin r) (Fin c) ℝ)
    (u : Fin r → ℝ) : ℕ → Fin r → ℝ
  | 0 => u
  | k + 1 => powerIterStep M (powerIterate M u k)

/-- `_power_iteration` (source lines 208-218), with the start vector `u0`
made an explicit argument (the source draws `u0 = torch.randn(M.size(0))`;
per the spec the estimator is deterministic given the seed): 26 iterations,
then `sigma = torch.norm(u @ M)`. -/
noncomputable def power_iteration {r c : ℕ} (u0 : Fin r → ℝ)
    (M : Matrix (Fin r) (Fin c) ℝ) : ℝ :=
  vecNorm ((powerIterate M u0 26) ᵥ* M)

/-- `scale = torch.sqrt(torch.tensor(p.size(-2) / p.size(-1)))`
(source line 267). -/
noncomputable def muonScale (r c : ℕ) : ℝ :=
  Real.sqrt ((r : ℝ) / (c : ℝ))

/-- The per-parameter APPLY of `update_prev` (source lines 266-280):
`p.add_(g, alpha=-lr*scale)`, then
`scale_down = max(1, sigma_max / (w_max*scale))` and
`p.div_(scale_down + 1e-12)`.  Returns (new parameter, σ estimate,
scale_down). -/
noncomputable def muonApplyParam {r c : ℕ} (lr wmax : ℝ) (u0 : Fin r → ℝ)
    (p g : Matrix (Fin r) (Fin c) ℝ) :
    Matrix (Fin r) (Fin c) ℝ × ℝ × ℝ :=
  let scale := muonScale r c
  let p1 := p + (-(lr * scale)) • g
  let sigma := power_iteration u0 p1
  let scaleDown := max 1 (sigma / (wmax * scale))
  ((1 / (scaleDown + 1e-12)) • p1, sigma, scaleDown)

/-! ## Interval-arithmetic certificate for the singular-value bound (claim C4)

The five quintic steps of `orthogonalize` act on each eigenvalue λ of
`XᵀX` by `φ_{a,b,c}(λ) = λ (a + bλ + cλ²)²`.  The functions below compute,
in exact natural-number arithmetic (values scaled by `2^40`, coefficients by
`10^4`, so the φ-numerators carry denominator `10^8·2^200`), a verified
enclosure of `φ` on an interval `[l, h] ⊆ [0, ∞)` via second-order
divided-difference (Taylor) bounds, every signed quantity split into a
(positive, negative) pair of naturals.  `checkLeavesN` verifies a partition
of `[2^-18, 1]` on which the five-step composition stays below
`1.3225 = 1.15²`. -/

def SKn : ℕ := 1099511627776
def SK2n : ℕ := 1208925819614629174706176
def SK3n : ℕ := 1329227995784915872903807060280344576
def SK4n : ℕ := 1461501637330902918203684832716283019655932542976
def ESK4n : ℕ := 146150163733090291820368483271628301965593254297600000000

def forceNat {α : Type} (x : ℕ) (k : ℕ → α) : α :=
  match x with
  | 0 => k 0
  | Nat.succ m => k (Nat.succ m)

def forcePair {α : Type} (x : ℕ × ℕ) (k : ℕ → ℕ → α) : α :=
  match x with
  | (a, b) => k a b

def phiStepN (a bp c l0 h0 : ℕ) : ℕ × ℕ :=
  forceNat l0 fun l =>
  forceNat h0 fun h =>
  forceNat (Nat.mul a a) fun e1 =>
  forceNat (Nat.mul 2 (Nat.mul a bp)) fun e2 =>
  forceNat (Nat.add (Nat.mul bp bp) (Nat.mul 2 (Nat.mul a c))) fun e3 =>
  forceNat (Nat.mul 2 (Nat.mul bp c)) fun e4 =>
  forceNat (Nat.mul c c) fun e5 =>
  forceNat (Nat.mul l l) fun l2 =>
  forceNat (Nat.mul l2 l) fun l3 =>
  forceNat (Nat.mul l3 l) fun l4 =>
  forceNat (Nat.mul l4 l) fun l5 =>
  forceNat (Nat.mul h h) fun h2 =>
  forceNat (Nat.mul h2 h) fun h3 =>
  forceNat (Nat.mul h3 h) fun h4 =>
  forceNat (Nat.mul h4 h) fun h5 =>
  forceNat (Nat.add (Nat.add (Nat.mul (Nat.mul e1 l) SK4n) (Nat.mul (Nat.mul e3 l3) SK2n)) (Nat.mul e5 l5)) fun PlP =>
  forceNat (Nat.add (Nat.mul (Nat.mul e2 l2) SK3n) (Nat.mul (Nat.mul e4 l4) SKn)) fun PlM =>
  forceNat (Nat.add (Nat.add (Nat.mul (Nat.mul e1 h) SK4n) (Nat.mul (Nat.mul e3 h3) SK2n)) (Nat.mul e5 h5)) fun PhP =>
  forceNat (Nat.add (Nat.mul (Nat.mul e2 h2) SK3n) (Nat.mul (Nat.mul e4 h4) SKn)) fun PhM =>
  forceNat (Nat.add (Nat.add (Nat.mul e1 SK4n) (Nat.mul (Nat.mul (Nat.mul 3 e3) l2) SK2n)) (Nat.mul (Nat.mul 5 e5) l4)) fun QlP =>
  forceNat (Nat.add (Nat.mul (Nat.mul (Nat.mul 2 e2) l) SK3n) (Nat.mul (Nat.mul (Nat.mul 4 e4) l3) SKn)) fun QlM =>
  forceNat (Nat.add (Nat.add (Nat.mul e1 SK4n) (Nat.mul (Nat.mul (Nat.mul 3 e3) h2) SK2n)) (Nat.mul (Nat.mul 5 e5) h4)) fun QhP =>
  forceNat (Nat.add (Nat.mul (Nat.mul (Nat.mul 2 e2) h) SK3n) (Nat.mul (Nat.mul (Nat.mul 4 e4) h3) SKn)) fun QhM =>
  forceNat (Nat.add (Nat.mul (Nat.mul (Nat.mul 3 e3) h) SK2n) (Nat.mul (Nat.mul 10 e5) h3)) fun RhiP =>
  forceNat (Nat.add (Nat.mul e2 SK3n) (Nat.mul (Nat.mul (Nat.mul 6 e4) l2) SKn)) fun RhiM =>
  forceNat (Nat.add (Nat.mul (Nat.mul (Nat.mul 3 e3) l) SK2n) (Nat.mul (Nat.mul 10 e5) l3)) fun RloP =>
  forceNat (Nat.add (Nat.mul e2 SK3n) (Nat.mul (Nat.mul (Nat.mul 6 e4) h2) SKn)) fun RloM =>
  forceNat (Nat.sub h l) fun w =>
  forceNat (Nat.mul w w) fun w2 =>
  forceNat (Nat.mul w2 (Nat.sub RhiP RhiM)) fun wrhi =>
  forceNat (Nat.mul w2 (Nat.sub RloM RloP)) fun wrlo =>
  forceNat (Nat.add (Nat.add PlP (Nat.mul w (Nat.sub QlP QlM))) wrhi) fun UP1 =>
  forceNat (Nat.add (Nat.add PhP (Nat.mul w (Nat.sub QhM QhP))) wrhi) fun UP2 =>
  forceNat (Nat.add PlM (Nat.add (Nat.mul w (Nat.sub QlM QlP)) wrlo)) fun DM1 =>
  forceNat (Nat.add PhM (Nat.add (Nat.mul w (Nat.sub QhP QhM)) wrlo)) fun DM2 =>
  forceNat (cond (Nat.ble (Nat.add UP1 PhM) (Nat.add UP2 PlM))
      (cond (Nat.ble PlM UP1) (Nat.add (Nat.div (Nat.sub UP1 PlM) ESK4n) 1) 0)
      (cond (Nat.ble PhM UP2) (Nat.add (Nat.div (Nat.sub UP2 PhM) ESK4n) 1) 0)) fun up =>
  forceNat (cond (Nat.ble (Nat.add PlP DM2) (Nat.add PhP DM1))
      (Nat.div (Nat.sub PhP DM2) ESK4n)
      (Nat.div (Nat.sub PlP DM1) ESK4n)) fun dn =>
  (dn, up)

def phiChainN (l h : ℕ) : ℕ × ℕ :=
  forcePair (phiStepN 40848 68946 29270 l h) fun d1 u1 =>
  forcePair (phiStepN 39505 63029 26377 d1 u1) fun d2 u2 =>
  forcePair (phiStepN 37418 55913 23037 d2 u2) fun d3 u3 =>
  forcePair (phiStepN 28769 31427 12046 d3 u3) fun d4 u4 =>
  phiStepN 28366 30525 12012 d4 u4

def checkLeavesN : List ℕ → Bool
  | [] => true
  | [_] => true
  | x :: y :: rest =>
    cond (Nat.ble (Nat.mul (phiChainN x y).2 10000) (Nat.mul 13225 SKn))
      (checkLeavesN (y :: rest)) false

def phiPartition : List ℕ :=
  [4194304,
   12582880,
   16777168,
   18874312,
   20971456,
   25165744,
   29360032,
   33554320,
   37748608,
   46137184,
   54525760,
   71302912,
   88080064,
   104857216,
   138411520,
   171965824,
   205520128,
   239074432,
   272628736,
   306183040,
   339737344,
   373291648,
   406845952,
   440400256,
   473954560,
   507508864,
   541063168,
   608171776,
   675280384,
   742388992,
   809497600,
   876606208,
   943714816,
   1077932032,
   1212149248,
   1346366464,
   1480583680,
   1614800896,
   1749018112,
   1883235328,
   2017452544,
   2151669760,
   2285886976,
   2420104192,
   2554321408,
   2688538624,
   2822755840,
   2956973056,
   3091190272,
   3225407488,
   3359624704,
   3493841920,
   3628059136,
   3762276352,
   3896493568,
   4030710784,
   4299145216,
   4567579648,
   4836014080,
   5104448512,
   5372882944,
   5641317376,
   5909751808,
   6178186240,
   6446620672,
   6715055104,
   6983489536,
   7251923968,
   7520358400,
   7788792832,
   8057227264,
   8325661696,
   8594096128,
   8862530560,
   9130964992,
   9399399424,
   9667833856,
   9936268288,
   10204702720,
   10741571584,
   11278440448,
   11815309312,
   12352178176,
   12889047040,
   13425915904,
   13962784768,
   14499653632,
   15036522496,
   16110260224,
   17183997952,
   18257735680,
   19331473408,
   20405211136,
   21478948864,
   22015817728,
   22552686592,
   23089555456,
   23626424320,
   24700162048,
   25773899776,
   26847637504,
   27384506368,
   27921375232,
   28458244096,
   28995112960,
   29531981824,
   30068850688,
   30605719552,
   31142588416,
   31679457280,
   32216326144,
   32753195008,
   33290063872,
   33826932736,
   34363801600,
   34900670464,
   35437539328,
   35974408192,
   36511277056,
   37048145920,
   37585014784,
   38121883648,
   38658752512,
   39195621376,
   39732490240,
   40269359104,
   40806227968,
   41879965696,
   42953703424,
   44027441152,
   45101178880,
   46174916608,
   46711785472,
   47248654336,
   47785523200,
   48322392064,
   48859260928,
   49396129792,
   49932998656,
   50469867520,
   51006736384,
   51543605248,
   52080474112,
   52617342976,
   53691080704,
   54764818432,
   55838556160,
   56912293888,
   57986031616,
   59059769344,
   60133507072,
   61207244800,
   62280982528,
   64428457984,
   66575933440,
   68723408896,
   69797146624,
   70870884352,
   71944622080,
   73018359808,
   74092097536,
   75165835264,
   76239572992,
   77313310720,
   78387048448,
   79460786176,
   80534523904,
   81608261632,
   82681999360,
   83755737088,
   84829474816,
   85903212544,
   86976950272,
   88050688000,
   89124425728,
   90198163456,
   91271901184,
   92345638912,
   93419376640,
   94493114368,
   96640589824,
   98788065280,
   100935540736,
   103083016192,
   105230491648,
   107377967104,
   109525442560,
   111672918016,
   113820393472,
   115967868928,
   118115344384,
   120262819840,
   122410295296,
   124557770752,
   126705246208,
   128852721664,
   131000197120,
   133147672576,
   135295148032,
   137442623488,
   139590098944,
   141737574400,
   143885049856,
   146032525312,
   148180000768,
   150327476224,
   152474951680,
   154622427136,
   156769902592,
   158917378048,
   161064853504,
   163212328960,
   165359804416,
   167507279872,
   171802230784,
   176097181696,
   180392132608,
   184687083520,
   188982034432,
   191129509888,
   193276985344,
   195424460800,
   197571936256,
   199719411712,
   201866887168,
   204014362624,
   206161838080,
   208309313536,
   210456788992,
   212604264448,
   214751739904,
   219046690816,
   223341641728,
   227636592640,
   231931543552,
   236226494464,
   240521445376,
   249111347200,
   257701249024,
   266291150848,
   274881052672,
   283470954496,
   287765905408,
   292060856320,
   296355807232,
   300650758144,
   304945709056,
   309240659968,
   313535610880,
   317830561792,
   322125512704,
   326420463616,
   330715414528,
   335010365440,
   339305316352,
   343600267264,
   347895218176,
   352190169088,
   360780070912,
   365075021824,
   369369972736,
   373664923648,
   377959874560,
   382254825472,
   386549776384,
   390844727296,
   395139678208,
   399434629120,
   403729580032,
   408024530944,
   412319481856,
   416614432768,
   420909383680,
   425204334592,
   429499285504,
   433794236416,
   438089187328,
   442384138240,
   446679089152,
   450974040064,
   455268990976,
   459563941888,
   463858892800,
   468153843712,
   472448794624,
   476743745536,
   481038696448,
   485333647360,
   489628598272,
   493923549184,
   498218500096,
   502513451008,
   506808401920,
   511103352832,
   515398303744,
   519693254656,
   523988205568,
   528283156480,
   532578107392,
   536873058304,
   541168009216,
   545462960128,
   549757911040,
   554052861952,
   558347812864,
   562642763776,
   566937714688,
   571232665600,
   575527616512,
   579822567424,
   584117518336,
   588412469248,
   592707420160,
   597002371072,
   601297321984,
   605592272896,
   609887223808,
   614182174720,
   618477125632,
   620624601088,
   622772076544,
   624919552000,
   627067027456,
   629214502912,
   631361978368,
   633509453824,
   635656929280,
   637804404736,
   639951880192,
   642099355648,
   644246831104,
   646394306560,
   648541782016,
   650689257472,
   652836732928,
   654984208384,
   657131683840,
   659279159296,
   661426634752,
   665721585664,
   670016536576,
   674311487488,
   678606438400,
   682901389312,
   687196340224,
   691491291136,
   695786242048,
   700081192960,
   704376143872,
   708671094784,
   712966045696,
   717260996608,
   721555947520,
   725850898432,
   730145849344,
   734440800256,
   738735751168,
   743030702080,
   747325652992,
   751620603904,
   755915554816,
   760210505728,
   764505456640,
   768800407552,
   773095358464,
   777390309376,
   781685260288,
   785980211200,
   790275162112,
   798865063936,
   807454965760,
   816044867584,
   824634769408,
   833224671232,
   841814573056,
   846109523968,
   850404474880,
   854699425792,
   858994376704,
   863289327616,
   867584278528,
   871879229440,
   876174180352,
   880469131264,
   884764082176,
   889059033088,
   893353984000,
   897648934912,
   901943885824,
   906238836736,
   910533787648,
   914828738560,
   919123689472,
   923418640384,
   927713591296,
   932008542208,
   936303493120,
   940598444032,
   944893394944,
   949188345856,
   953483296768,
   957778247680,
   962073198592,
   966368149504,
   970663100416,
   974958051328,
   979253002240,
   983547953152,
   987842904064,
   992137854976,
   996432805888,
   1000727756800,
   1005022707712,
   1009317658624,
   1013612609536,
   1017907560448,
   1022202511360,
   1026497462272,
   1030792413184,
   1035087364096,
   1039382315008,
   1043677265920,
   1047972216832,
   1052267167744,
   1056562118656,
   1060857069568,
   1065152020480,
   1073741922304,
   1082331824128,
   1090921725952,
   1095216676864,
   1099511627776]



/-- The eigenvalue map of one quintic step with coefficients `a/10⁴`,
`-bp/10⁴`, `c/10⁴`: an eigenvalue λ of `XᵀX` becomes `φ(λ) = λ q(λ)²` with
`q(λ) = a/10⁴ - (bp/10⁴)λ + (c/10⁴)λ²`. -/
noncomputable def phiRN (a bp c : ℕ) (t : ℝ) : ℝ :=
  t * ((a : ℝ) / 10000 - (bp : ℝ) / 10000 * t + (c : ℝ) / 10000 * t ^ 2) ^ 2

/-- The eigenvalue map of the full five-step iteration of `orthogonalize`. -/
noncomputable def phiChainRN (t : ℝ) : ℝ :=
  phiRN 28366 30525 12012 (phiRN 28769 31427 12046 (phiRN 37418 55913 23037
    (phiRN 39505 63029 26377 (phiRN 40848 68946 29270 t))))

/-! ### Exact ℕ interval checker, clean form

`fDn`/`fUp` restate the forced checker `phiStepN` with ordinary arithmetic
notation (proved equal in `phiStepN_eq`); `polyE` is the numerator polynomial
of one eigenvalue step, `dpolyE` its derivative and `remE`/`remB` the exact
second-order divided-difference remainder and its interval bounds. -/

def fE1 (a : ℕ) : ℕ := a * a

def fE2 (a bp : ℕ) : ℕ := 2 * (a * bp)

def fE3 (a bp c : ℕ) : ℕ := bp * bp + 2 * (a * c)

def fE4 (bp c : ℕ) : ℕ := 2 * (bp * c)

def fE5 (c : ℕ) : ℕ := c * c

def fPP (a bp c x : ℕ) : ℕ :=
  fE1 a * x * SK4n + fE3 a bp c * (x * x * x) * SK2n + fE5 c * (x * x * x * x * x)

def fPM (a bp c x : ℕ) : ℕ :=
  fE2 a bp * (x * x) * SK3n + fE4 bp c * (x * x * x * x) * SKn

def fQP (a bp c x : ℕ) : ℕ :=
  fE1 a * SK4n + 3 * fE3 a bp c * (x * x) * SK2n + 5 * fE5 c * (x * x * x * x)

def fQM (a bp c x : ℕ) : ℕ :=
  2 * fE2 a bp * x * SK3n + 4 * fE4 bp c * (x * x * x) * SKn

def fRP (a bp c x : ℕ) : ℕ :=
  3 * fE3 a bp c * x * SK2n + 10 * fE5 c * (x * x * x)

def fRM (a bp c x : ℕ) : ℕ :=
  fE2 a bp * SK3n + 6 * fE4 bp c * (x * x) * SKn

def fWrhi (a bp c l h : ℕ) : ℕ :=
  (h - l) * (h - l) * (fRP a bp c h - fRM a bp c l)

def fWrlo (a bp c l h : ℕ) : ℕ :=
  (h - l) * (h - l) * (fRM a bp c h - fRP a bp c l)

def fUP1 (a bp c l h : ℕ) : ℕ :=
  fPP a bp c l + (h - l) * (fQP a bp c l - fQM a bp c l) + fWrhi a bp c l h

def fUP2 (a bp c l h : ℕ) : ℕ :=
  fPP a bp c h + (h - l) * (fQM a bp c h - fQP a bp c h) + fWrhi a bp c l h

def fDM1 (a bp c l h : ℕ) : ℕ :=
  fPM a bp c l + ((h - l) * (fQM a bp c l - fQP a bp c l) + fWrlo a bp c l h)

def fDM2 (a bp c l h : ℕ) : ℕ :=
  fPM a bp c h + ((h - l) * (fQP a bp c h - fQM a bp c h) + fWrlo a bp c l h)

def fUp (a bp c l h : ℕ) : ℕ :=
  cond (Nat.ble (fUP1 a bp c l h + fPM a bp c h) (fUP2 a bp c l h + fPM a bp c l))
    (cond (Nat.ble (fPM a bp c l) (fUP1 a bp c l h))
      ((fUP1 a bp c l h - fPM a bp c l) / ESK4n + 1) 0)
    (cond (Nat.ble (fPM a bp c h) (fUP2 a bp c l h))
      ((fUP2 a bp c l h - fPM a bp c h) / ESK4n + 1) 0)

def fDn (a bp c l h : ℕ) : ℕ :=
  cond (Nat.ble (fPP a bp c l + fDM2 a bp c l h) (fPP a bp c h + fDM1 a bp c l h))
    ((fPP a bp c h - fDM2 a bp c l h) / ESK4n)
    ((fPP a bp c l - fDM1 a bp c l h) / ESK4n)

noncomputable def polyE (a bp c : ℕ) (t : ℝ) : ℝ :=
  (fE1 a : ℝ) * t - (fE2 a bp : ℝ) * t ^ 2 + (fE3 a bp c : ℝ) * t ^ 3
    - (fE4 bp c : ℝ) * t ^ 4 + (fE5 c : ℝ) * t ^ 5

noncomputable def dpolyE (a bp c : ℕ) (x : ℝ) : ℝ :=
  (fE1 a : ℝ) - 2 * (fE2 a bp : ℝ) * x + 3 * (fE3 a bp c : ℝ) * x ^ 2
    - 4 * (fE4 bp c : ℝ) * x ^ 3 + 5 * (fE5 c : ℝ) * x ^ 4

noncomputable def remE (a bp c : ℕ) (x t : ℝ) : ℝ :=
  -(fE2 a bp : ℝ) + (fE3 a bp c : ℝ) * (t + 2 * x)
    - (fE4 bp c : ℝ) * (t ^ 2 + 2 * x * t + 3 * x ^ 2)
    + (fE5 c : ℝ) * (t ^ 3 + 2 * x * t ^ 2 + 3 * x ^ 2 * t + 4 * x ^ 3)

noncomputable def remB (a bp c : ℕ) (p q : ℝ) : ℝ :=
  -(fE2 a bp : ℝ) + 3 * (fE3 a bp c : ℝ) * p - 6 * (fE4 bp c : ℝ) * q ^ 2
    + 10 * (fE5 c : ℝ) * p ^ 3

/-! # Theorems -/

/-! ## Claim C3: `orthogonalize` computes exactly the specified algorithm -/

/-- Claim C3 (confirmed): for every input matrix, `orthogonalize` computes
exactly the spec's algorithm — transpose first iff rows > cols, divide by
(Frobenius norm + 1e-7), apply the fixed five-step sequence of quintic
iterations `A = X Xᵀ; B = bA + cA²; X = aX + BX` with the precomputed
coefficient triples, and restore the original orientation at the end. -/
theorem orthogonalize_eq_spec {m n : ℕ} (M : Matrix (Fin m) (Fin n) ℝ) :
    orthogonalize M = orthogonalizeSpec M := rfl

/-! ## Claim C6: the momentum store -/

/-- Claim C6 (confirmed): each momentum update sets
`buf' = momentum • buf + (1-momentum) • g`; with Nesterov lookahead the
effective update is `(1-momentum) • g + momentum • buf'` (using the already
updated buffer), otherwise it is `buf'` itself; and a previously
uninitialized buffer behaves exactly like a zero buffer. -/
theorem muon_momentum_blend {m n : ℕ} (mo : ℝ) (nes : Bool)
    (state : Option (Matrix (Fin m) (Fin n) ℝ)) (g : Matrix (Fin m) (Fin n) ℝ) :
    (muonMomentum mo nes state g).1 = mo • state.getD 0 + (1 - mo) • g ∧
    (muonMomentum mo nes state g).2 =
      (if nes then (1 - mo) • g + mo • (muonMomentum mo nes state g).1
       else (muonMomentum mo nes state g).1) ∧
    muonMomentum mo nes none g = muonMomentum mo nes (some 0) g := by
  refine ⟨?_, ?_, rfl⟩
  · ext i j
    simp [muonMomentum, lerp, Matrix.add_apply, Matrix.smul_apply, Matrix.sub_apply]
    ring
  · rcases nes with _ | _
    · rfl
    · ext i j
      simp [muonMomentum, lerp, Matrix.add_apply, Matrix.smul_apply, Matrix.sub_apply]
      ring

/-! ## Claim C5: NaN handling of the spectral cap (corrected)

The claim says a NaN/Inf spectral-norm estimate is clamped to the safe
default `1.0` and logged.  In the source the clamp
`if torch.isnan(scale_down): scale_down = 1` is commented out (lines
278-279) and there is no logging: `torch.maximum(torch.tensor(1.0), nan)`
is NaN, and the division propagates it into the parameter. -/

/-- Claim C5, counterexample: with a NaN estimate the scale-down factor is
NaN (not the claimed clamped `1.0`), and the rescaled parameter entry is NaN
as well. -/
theorem muon_nan_scale_down_counterexample :
    muonScaleDown none 1 ≠ some 1 ∧ muonRescaleEntry 2 (muonScaleDown none 1) = none := by
  constructor
  · intro h
    simp [muonScaleDown, fMax, fDiv] at h
  · rfl

/-- Claim C5 (corrected): a NaN spectral-norm estimate makes the scale-down
factor NaN, and the NaN propagates into every rescaled parameter entry; no
clamping (and no logging) happens. -/
theorem muon_nan_propagates (w p : ℝ) :
    muonScaleDown none w = none ∧ muonRescaleEntry p (muonScaleDown none w) = none :=
  ⟨rfl, rfl⟩

/-! ## Claim C8: the out-of-range placeholder contribution (corrected)

The claim says an out-of-range device contributes a zero buffer.  The
source line 294 is `g = update_buffer_views[self.rank]`: the device
contributes its own slot of the gather buffer, whose content is stale (or
uninitialized, from `torch.empty`), not zero. -/

/-- Claim C8, counterexample: with one parameter on two devices, device 1 is
out of range at shard base 0 and contributes its buffer slot — here holding
`1`, not `0` (the slot is `torch.empty` garbage or a stale gather result). -/
theorem muon_placeholder_counterexample :
    ¬ (0 + 1 < 1) ∧ muonContribution 1 1 0 (1 : ℤ) 5 = 1 ∧ (1 : ℤ) ≠ 0 := by decide

/-- Claim C8 (corrected): at shard base `b`, a device whose assigned index
`b + rank` falls outside the group contributes its own (stale) slot of the
gather buffer as the placeholder, whatever that slot holds. -/
theorem muon_placeholder_is_buffer_view {α : Type} (n rank b : ℕ)
    (bufferView computed : α) (h : ¬ (b + rank < n)) :
    muonContribution n rank b bufferView computed = bufferView := by
  simp [muonContribution, h]

/-- Witness for `muon_placeholder_is_buffer_view` at `n = 1`, `w = 2`,
`rank = 1`, `b = 0`. -/
theorem muon_placeholder_is_buffer_view_witness :
    muonContribution 1 1 0 (3 : ℤ) 7 = 3 :=
  muon_placeholder_is_buffer_view 1 1 0 3 7 (by decide)

/-! ## Claim C9: exceptions of `orthogonalize` (corrected)

The claim says `orthogonalize` fails exactly on non-2D input.  The source
has no dimensionality assert: it reads `shape[-2]`/`shape[-1]`, which raises
only when `ndim < 2`; batched inputs with `ndim > 2` are processed fine
(`mT` and `norm(dim=(-2,-1))` are batch-aware). -/

/-- Claim C9, counterexample: a 3-D input — non-2D — raises no exception. -/
theorem orthogonalize_shape_counterexample :
    orthogonalizeShape [7, 3, 4] = some [7, 3, 4] ∧ ([7, 3, 4] : List ℕ).length ≠ 2 := by
  decide

/-- Claim C9 (corrected): `orthogonalize` fails (with the index error raised
at the `shape[-2]` read) exactly on inputs with fewer than two dimensions;
every input with `ndim ≥ 2`, batched inputs included, is processed without
exception, keeping its shape. -/
theorem orthogonalize_shape_iff (s : List ℕ) :
    (orthogonalizeShape s = some s ↔ 2 ≤ s.length) ∧
    (orthogonalizeShape s = none ↔ s.length < 2) := by
  by_cases h2 : 2 ≤ s.length
  · have h1 : 1 ≤ s.length := le_trans (by norm_num) h2
    unfold orthogonalizeShape pyNegIdx
    rw [if_pos h2, if_pos h1,
      List.getElem?_eq_getElem (by omega : s.length - 2 < s.length),
      List.getElem?_eq_getElem (by omega : s.length - 1 < s.length)]
    constructor
    · simp [h2]
    · simp; omega
  · have hn : pyNegIdx s 2 = none := by unfold pyNegIdx; rw [if_neg h2]
    unfold orthogonalizeShape
    rw [hn]
    rcases hq : pyNegIdx s 1 with _ | b
    · constructor
      · simp [h2]
      · simp; omega
    · constructor
      · simp [h2]
      · simp; omega

/-! ## Claim C7: round-robin completeness of the shard assignment -/

/-- Claim C7 (confirmed): for a group of `n` parameters on `w ≥ 1` devices,
every parameter index `idx < n` is computed at exactly one
(shard base, rank) pair — namely base `(idx / w) * w` and rank `idx % w` —
so each parameter's orthogonalized update is produced by exactly one device
per optimizer step. -/
theorem muon_shard_round_robin (n w idx : ℕ) (hw : 1 ≤ w) (hidx : idx < n) :
    ((idx / w) * w, idx % w) ∈ muonPairs n w ∧
    (idx / w) * w + idx % w = idx ∧
    ∀ p ∈ muonPairs n w, p.1 + p.2 = idx → p = ((idx / w) * w, idx % w) := by
  have hw0 : 0 < w := hw
  have hsum : (idx / w) * w + idx % w = idx := by
    rw [Nat.mul_comm]; exact Nat.div_add_mod idx w
  refine ⟨?_, hsum, ?_⟩
  · apply List.mem_flatMap.2
    refine ⟨(idx / w) * w, ?_, ?_⟩
    · apply List.mem_map.2
      refine ⟨idx / w, List.mem_range.2 ?_, rfl⟩
      have hn1 : ((n - 1) + 1 * w) / w = (n - 1) / w + 1 :=
        Nat.add_mul_div_right (n - 1) 1 hw0
      have hK : (n + w - 1) / w = (n - 1) / w + 1 := by
        rw [← hn1]; congr 1; omega
      have hle : idx / w ≤ (n - 1) / w := Nat.div_le_div_right (by omega)
      omega
    · apply List.mem_filterMap.2
      refine ⟨idx % w, List.mem_range.2 (Nat.mod_lt idx hw0), ?_⟩
      rw [if_pos (by omega)]
  · intro p hp hpidx
    obtain ⟨b, hb, hpin⟩ := List.mem_flatMap.1 hp
    obtain ⟨k, _, hkb⟩ := List.mem_map.1 hb
    obtain ⟨r, hr, hfr⟩ := List.mem_filterMap.1 hpin
    have hrw : r < w := List.mem_range.1 hr
    by_cases hin : b + r < n
    · rw [if_pos hin] at hfr
      have hpeq : p = (b, r) := by exact (Option.some_inj.1 hfr).symm
      subst hpeq hkb
      have hidx2 : r + k * w = idx := by
        have := hpidx
        simpa [Nat.add_comm] using this
      have hdiv : idx / w = k := by
        rw [← hidx2, Nat.add_mul_div_right r k hw0, Nat.div_eq_of_lt hrw]
        omega
      have hmod : idx % w = r := by
        rw [← hidx2, Nat.add_mul_mod_self_right, Nat.mod_eq_of_lt hrw]
      rw [hdiv, hmod]
    · rw [if_neg hin] at hfr
      exact absurd hfr (by simp)

/-- Witness for `muon_shard_round_robin`: the spec's scenario (3 parameters,
world size 2) at parameter index 2, assigned to base 2, rank 0. -/
theorem muon_shard_round_robin_witness :
    ((2 / 2) * 2, 2 % 2) ∈ muonPairs 3 2 ∧
    (2 / 2) * 2 + 2 % 2 = 2 ∧
    ∀ p ∈ muonPairs 3 2, p.1 + p.2 = 2 → p = ((2 / 2) * 2, 2 % 2) :=
  muon_shard_round_robin 3 2 2 (by norm_num) (by norm_num)

/-! ## Claim C1: gather/apply sequencing of `Muon.step` -/

theorem muonLoop_chain (rest : List ℕ) :
    ∀ p : ℕ, (∀ b ∈ rest, 0 < b) → muonLoop rest (some p) = some (muonChain p rest) := by
  induction rest with
  | nil => intro p _; rfl
  | cons b bs ih =>
    intro p hpos
    have hb : 0 < b := hpos b (List.mem_cons_self b bs)
    have hbs : ∀ x ∈ bs, 0 < x := fun x hx => hpos x (List.mem_cons_of_mem b hx)
    simp only [muonLoop, if_pos hb, ih b hbs]
    rfl

theorem ceil_div_eq_succ (n w : ℕ) (hn : 1 ≤ n) (hw : 1 ≤ w) :
    (n + w - 1) / w = (n - 1) / w + 1 := by
  have h : ((n - 1) + 1 * w) / w = (n - 1) / w + 1 := Nat.add_mul_div_right (n - 1) 1 hw
  rw [← h]; congr 1; omega

theorem muonShards_cons (n w : ℕ) (hn : 1 ≤ n) (hw : 1 ≤ w) :
    muonShards n w = 0 :: (List.range ((n - 1) / w)).map (fun k => (k + 1) * w) := by
  unfold muonShards
  rw [ceil_div_eq_succ n w hn hw, List.range_succ_eq_map, List.map_cons, List.map_map]
  simp [Function.comp_def, Nat.succ_eq_add_one]

theorem precedes_cons (x y e : MuonEvent) (tr : List MuonEvent) :
    Precedes x y tr → Precedes x y (e :: tr) := by
  rintro ⟨i, j, hij, hi, hj⟩
  exact ⟨i + 1, j + 1, by omega, hi, hj⟩

theorem muonChain_precedes (w : ℕ) :
    ∀ (m j k : ℕ), k < m →
      Precedes (MuonEvent.apply ((j + k) * w)) (MuonEvent.gather ((j + k + 1) * w))
        (muonChain (j * w) ((List.range m).map (fun i => (j + i + 1) * w))) := by
  intro m
  induction m with
  | zero => intro j k hk; omega
  | succ m ih =>
    intro j k hk
    rw [List.range_succ_eq_map, List.map_cons, List.map_map]
    rcases k with _ | k
    · exact ⟨0, 1, by omega, by simp [muonChain], by simp [muonChain]⟩
    · have harg : ((fun i => (j + i + 1) * w) ∘ Nat.succ) = (fun i => ((j + 1) + i + 1) * w) := by
        funext i
        simp only [Function.comp]
        congr 1
        omega
      rw [harg]
      have h := ih (j + 1) k (by omega)
      have hje : (j + 1) * w = (j + 0 + 1) * w := by norm_num
      have hae : (j + 1 + k) * w = (j + (k + 1)) * w := by ring_nf
      have hge : (j + 1 + k + 1) * w = (j + (k + 1) + 1) * w := by ring_nf
      rw [hae, hge] at h
      exact precedes_cons _ _ _ _ (precedes_cons _ _ _ _ h)

theorem muonChain_filterMap_apply (rest : List ℕ) :
    ∀ p : ℕ, (muonChain p rest).filterMap applyIdx = p :: rest := by
  induction rest with
  | nil => intro p; rfl
  | cons b bs ih =>
    intro p
    simp only [muonChain, List.filterMap_cons, applyIdx, ih b]

theorem muonChain_filterMap_gather (rest : List ℕ) :
    ∀ p : ℕ, (muonChain p rest).filterMap gatherIdx = rest := by
  induction rest with
  | nil => intro p; rfl
  | cons b bs ih =>
    intro p
    simp only [muonChain, List.filterMap_cons, gatherIdx, ih b]

theorem muonChain_getLast (rest : List ℕ) :
    ∀ p : ℕ, (muonChain p rest).getLast? = some (MuonEvent.apply (rest.getLastD p)) := by
  induction rest with
  | nil => intro p; rfl
  | cons b bs ih =>
    intro p
    have h := ih b
    cases bs with
    | nil => rfl
    | cons c cs =>
      simp only [muonChain] at h ⊢
      rw [List.getLast?_cons_cons, List.getLast?_cons_cons, h]
      rfl

theorem stepped_getLastD (w : ℕ) :
    ∀ m : ℕ, (((List.range m).map (fun k => (k + 1) * w)).getLastD 0) = m * w := by
  intro m
  cases m with
  | zero => simp
  | succ m =>
    rw [List.range_succ, List.map_append]
    simp [List.getLastD_eq_getLast?]

/-- Claim C1 (confirmed): in `Muon.step`, for every nonempty parameter group,
the trace of one step exists (no crash), starts with `GATHER(0)` with no
prior APPLY, has `APPLY(b - w)` strictly before `GATHER(b)` for every later
shard base `b`, ends with the final shard's APPLY, performs that final APPLY
exactly once, and applies exactly the gathered shards in order (so no gather
handle is left pending). -/
theorem getLast?_cons_of_some {α : Type} (e x : α) (l : List α) (h : l.getLast? = some x) :
    (e :: l).getLast? = some x := by
  cases l with
  | nil => simp at h
  | cons c cs => rw [List.getLast?_cons_cons]; exact h

theorem muon_step_sequencing (n w : ℕ) (hn : 1 ≤ n) (hw : 1 ≤ w) :
    ∃ tr : List MuonEvent, muonStepTrace n w = some tr ∧
      tr.head? = some (MuonEvent.gather 0) ∧
      (∀ b ∈ muonShards n w, 0 < b →
        Precedes (MuonEvent.apply (b - w)) (MuonEvent.gather b) tr) ∧
      tr.getLast? = some (MuonEvent.apply (muonLastShard n w)) ∧
      (tr.filterMap applyIdx).count (muonLastShard n w) = 1 ∧
      tr.filterMap applyIdx = muonShards n w ∧
      tr.filterMap gatherIdx = muonShards n w := by
  have hw0 : 0 < w := hw
  set m := (n - 1) / w with hm
  set rest := (List.range m).map (fun k => (k + 1) * w) with hrest
  have hshards : muonShards n w = 0 :: rest := muonShards_cons n w hn hw
  have hrestpos : ∀ b ∈ rest, 0 < b := by
    intro b hb
    obtain ⟨k, _, hkb⟩ := List.mem_map.1 hb
    have : 0 < (k + 1) * w := Nat.mul_pos (Nat.succ_pos k) hw0
    omega
  have htrace : muonStepTrace n w = some (MuonEvent.gather 0 :: muonChain 0 rest) := by
    unfold muonStepTrace
    rw [hshards]
    simp only [muonLoop, lt_irrefl, if_false, muonLoop_chain rest 0 hrestpos]
    rfl
  have hlast : muonLastShard n w = rest.getLastD 0 := by
    rw [hrest, stepped_getLastD w m, hm]
    rfl
  have hKm : (n + w - 1) / w = m + 1 := by
    rw [hm]; exact ceil_div_eq_succ n w hn hw
  have hlastm : muonLastShard n w = m * w := rfl
  have hnodup : (muonShards n w).Nodup :=
    List.Nodup.map (fun a b hab => Nat.eq_of_mul_eq_mul_right hw0 hab) (List.nodup_range _)
  have hlastmem : muonLastShard n w ∈ muonShards n w := by
    rw [hlastm]
    unfold muonShards
    exact List.mem_map.2 ⟨m, List.mem_range.2 (by rw [hKm]; omega), rfl⟩
  refine ⟨_, htrace, rfl, ?_, ?_, ?_, ?_, ?_⟩
  · intro b hb hbpos
    rw [hshards] at hb
    rcases List.mem_cons.1 hb with h0 | hbr
    · omega
    · obtain ⟨k, hkm, hkb⟩ := List.mem_map.1 hbr
      have hk : k < m := List.mem_range.1 hkm
      have h := muonChain_precedes w m 0 k hk
      have hfun : (fun i => (0 + i + 1) * w) = (fun k => (k + 1) * w) := by
        funext i; norm_num
      rw [hfun] at h
      have hz : (0 : ℕ) * w = 0 := by norm_num
      rw [hz] at h
      have hsm : (k + 1) * w = k * w + w := Nat.succ_mul k w
      have hbw : b - w = (0 + k) * w := by
        rw [← hkb]
        simp only [Nat.zero_add]
        rw [hsm]
        simp
      have hbg : b = (0 + k + 1) * w := by rw [← hkb]; norm_num
      rw [hbw, hbg]
      exact precedes_cons _ _ _ _ h
  · rw [getLast?_cons_of_some _ _ _ (muonChain_getLast rest 0), hlast]
  · simp only [List.filterMap_cons, applyIdx, muonChain_filterMap_apply rest 0]
    rw [← hshards, List.count_eq_one_of_mem hnodup hlastmem]
  · simp only [List.filterMap_cons, applyIdx, muonChain_filterMap_apply rest 0]
    rw [← hshards]
  · simp only [List.filterMap_cons, gatherIdx, muonChain_filterMap_gather rest 0]
    rw [hshards]

/-- Witness for `muon_step_sequencing`: the spec's scenario, a group of 3
parameters on 2 devices (shard bases 0 and 2); in particular it follows that
`APPLY(0)` happens strictly before `GATHER(2)` is issued. -/
theorem muon_step_sequencing_witness :
    ∃ tr : List MuonEvent, muonStepTrace 3 2 = some tr ∧
      tr.head? = some (MuonEvent.gather 0) ∧
      (∀ b ∈ muonShards 3 2, 0 < b →
        Precedes (MuonEvent.apply (b - 2)) (MuonEvent.gather b) tr) ∧
      tr.getLast? = some (MuonEvent.apply (muonLastShard 3 2)) ∧
      (tr.filterMap applyIdx).count (muonLastShard 3 2) = 1 ∧
      tr.filterMap applyIdx = muonShards 3 2 ∧
      tr.filterMap gatherIdx = muonShards 3 2 :=
  muon_step_sequencing 3 2 (by norm_num) (by norm_num)

/-! ## Claim C10: only the in-range gather slots are applied -/

theorem getElem?_zip {α β : Type} :
    ∀ (l1 : List α) (l2 : List β) (i : ℕ),
      (l1.zip l2)[i]? = l1[i]?.bind (fun a => (l2[i]?).map (fun b => (a, b))) := by
  intro l1
  induction l1 with
  | nil => intro l2 i; simp
  | cons a l ih =>
    intro l2 i
    cases l2 with
    | nil => simp
    | cons b l2 =>
      cases i with
      | zero => simp
      | succ i => simpa using ih l2 i

theorem zip_eq_zip_take {α β : Type} :
    ∀ (l : List α) (v : List β), l.zip v = l.zip (v.take l.length) := by
  intro l
  induction l with
  | nil => intro v; simp
  | cons a l ih =>
    intro v
    cases v with
    | nil => simp
    | cons b v => simpa using ih v

/-- Claim C10 (confirmed): in `update_prev`, the gathered views are zipped
against the Python slice `params[base_i : base_i + W]`, which truncates at
the group's end, so (1) exactly `min W (N - b)` pairs are applied, (2) the
parameter list keeps its length, (3) parameters outside the window are
untouched, (4) parameter `j` in the window is replaced by
`f params[j] views[j-b]`, and (5) the result does not depend on the
placeholder view slots at positions `≥ N - b` — they never modify any
parameter. -/
theorem muon_apply_slice_window {α β : Type} (f : α → β → α)
    (params : List α) (views : List β) (b : ℕ) :
    (((params.drop b).take views.length).zip views).length
        = min views.length (params.length - b) ∧
    (muonApplySlice f params views b).length = params.length ∧
    (∀ j : ℕ, j < b ∨ b + views.length ≤ j →
        (muonApplySlice f params views b)[j]? = params[j]?) ∧
    (∀ j : ℕ, b ≤ j → j < min (b + views.length) params.length →
        (muonApplySlice f params views b)[j]? =
          params[j]?.bind (fun p => (views[j - b]?).map (fun v => f p v))) ∧
    (∀ views' : List β, views'.length = views.length →
        views'.take (params.length - b) = views.take (params.length - b) →
        muonApplySlice f params views' b = muonApplySlice f params views b) := by
  have hzl : (((params.drop b).take views.length).zip views).length
      = min views.length (params.length - b) := by
    rw [List.length_zip, List.length_take, List.length_drop]
    rw [inf_eq_min, inf_eq_min]
    omega
  have hA : (params.take b).length = min b params.length := by
    rw [List.length_take, inf_eq_min]
  refine ⟨hzl, ?_, ?_, ?_, ?_⟩
  · unfold muonApplySlice
    dsimp only
    rw [List.length_append, List.length_append, List.length_map, hzl, hA,
      List.length_drop]
    omega
  · intro j hj
    unfold muonApplySlice
    dsimp only
    rw [List.append_assoc, List.getElem?_append, hA]
    rcases hj with hj | hj
    · by_cases hjN : j < params.length
      · rw [if_pos (by omega), List.getElem?_take, if_pos hj]
      · rw [if_neg (by omega), List.getElem?_append, List.length_map, hzl,
          if_neg (by omega), List.getElem?_drop]
        rw [List.getElem?_eq_none (by omega), List.getElem?_eq_none (by omega)]
    · rw [if_neg (by omega), List.getElem?_append, List.length_map, hzl,
        if_neg (by omega), List.getElem?_drop]
      by_cases hjN : j < params.length
      · have harith : b + min views.length (params.length - b)
            + (j - min b params.length - min views.length (params.length - b)) = j := by
          omega
        rw [harith]
      · rw [List.getElem?_eq_none (by omega), List.getElem?_eq_none (by omega)]
  · intro j hbj hjm
    have hjN : j < params.length := by omega
    have hbN : b ≤ params.length := by omega
    unfold muonApplySlice
    dsimp only
    rw [List.append_assoc, List.getElem?_append, hA, if_neg (by omega),
      List.getElem?_append, List.length_map, hzl, if_pos (by omega),
      List.getElem?_map, getElem?_zip, List.getElem?_take]
    have hjb : j - min b params.length = j - b := by omega
    rw [hjb, if_pos (by omega), List.getElem?_drop]
    have harith : b + (j - b) = j := by omega
    rw [harith]
    rw [List.getElem?_eq_getElem (by omega : j < params.length),
      List.getElem?_eq_getElem (by omega : j - b < views.length)]
    simp
  · intro views' hlen htake
    have hple : ((params.drop b).take views.length).length ≤ params.length - b := by
      rw [List.length_take, List.length_drop, inf_eq_min]
      omega
    have hz : ((params.drop b).take views.length).zip views'
        = ((params.drop b).take views.length).zip views := by
      rw [zip_eq_zip_take _ views', zip_eq_zip_take _ views]
      congr 1
      have h1 : views'.take ((params.drop b).take views.length).length
          = (views'.take (params.length - b)).take
              ((params.drop b).take views.length).length := by
        rw [List.take_take, inf_eq_min, Nat.min_eq_left hple]
      have h2 : views.take ((params.drop b).take views.length).length
          = (views.take (params.length - b)).take
              ((params.drop b).take views.length).length := by
        rw [List.take_take, inf_eq_min, Nat.min_eq_left hple]
      rw [h1, h2, htake]
    unfold muonApplySlice
    dsimp only
    rw [hlen, hz]

/-! ## Claim C2: the APPLY phase caps the spectral-norm estimate -/

theorem vecNorm_nonneg {k : ℕ} (u : Fin k → ℝ) : 0 ≤ vecNorm u :=
  Real.sqrt_nonneg _

theorem vecNorm_smul {k : ℕ} (a : ℝ) (u : Fin k → ℝ) :
    vecNorm (a • u) = |a| * vecNorm u := by
  unfold vecNorm
  have h : ∑ i, (a • u) i ^ 2 = a ^ 2 * ∑ i, u i ^ 2 := by
    rw [Finset.mul_sum]
    refine Finset.sum_congr rfl fun i _ => ?_
    simp [Pi.smul_apply, smul_eq_mul]
    ring
  rw [h, Real.sqrt_mul (sq_nonneg a), Real.sqrt_sq_eq_abs]

theorem vecMul_smul_matrix {r c : ℕ} (a : ℝ) (u : Fin r → ℝ)
    (M : Matrix (Fin r) (Fin c) ℝ) : u ᵥ* (a • M) = a • (u ᵥ* M) := by
  ext j
  simp only [Matrix.vecMul, Matrix.dotProduct, Matrix.smul_apply, Pi.smul_apply,
    smul_eq_mul, Finset.mul_sum]
  refine Finset.sum_congr rfl fun i _ => ?_
  ring

theorem powerIterate_div {r c : ℕ} (d : ℝ) (hd : 1 ≤ d)
    (M : Matrix (Fin r) (Fin c) ℝ) (u0 : Fin r → ℝ) (k : ℕ) :
    ∃ t : ℝ, 0 < t ∧ t ≤ 1 ∧
      powerIterate ((1 / d) • M) u0 k = t • powerIterate M u0 k := by
  have hd0 : 0 < d := lt_of_lt_of_le one_pos hd
  induction k with
  | zero => exact ⟨1, one_pos, le_refl 1, (one_smul ℝ _).symm⟩
  | succ k ih =>
    obtain ⟨t, ht0, ht1, heq⟩ := ih
    set u := powerIterate M u0 k with hu
    set u2 := (u ᵥ* M) ᵥ* Mᵀ with hu2
    set s := t * (1 / d) * (1 / d) with hs
    have hs0 : 0 < s := by positivity
    have h1d : 1 / d ≤ 1 := by
      rw [div_le_one hd0]; exact hd
    have h1d0 : 0 < 1 / d := by positivity
    have hs1 : s ≤ 1 := by
      have h1 : t * (1 / d) ≤ 1 := mul_le_one ht1 (le_of_lt h1d0) h1d
      rw [hs]
      exact mul_le_one h1 (le_of_lt h1d0) h1d
    have e1 : (t • u) ᵥ* ((1 / d) • M) = (t * (1 / d)) • (u ᵥ* M) := by
      rw [Matrix.vecMul_smul, vecMul_smul_matrix, smul_smul]
    have e2 : ((t * (1 / d)) • (u ᵥ* M)) ᵥ* ((1 / d) • M)ᵀ = s • u2 := by
      rw [Matrix.transpose_smul, Matrix.vecMul_smul, vecMul_smul_matrix, smul_smul]
    have hstep : powerIterate ((1 / d) • M) u0 (k + 1)
        = (1 / (vecNorm (s • u2) + 1e-8)) • (s • u2) := by
      show powerIterStep ((1 / d) • M) (powerIterate ((1 / d) • M) u0 k) = _
      rw [heq]
      unfold powerIterStep
      dsimp only
      rw [e1, e2]
    set N := vecNorm u2 with hN
    have hN0 : 0 ≤ N := vecNorm_nonneg u2
    have hden : (0 : ℝ) < s * N + 1e-8 := by positivity
    have hden2 : (0 : ℝ) < N + 1e-8 := by positivity
    refine ⟨s * (N + 1e-8) / (s * N + 1e-8), by positivity, ?_, ?_⟩
    · rw [div_le_one hden]
      nlinarith
    · rw [hstep]
      show _ = _ • powerIterStep M u
      unfold powerIterStep
      rw [vecNorm_smul, abs_of_pos hs0, smul_smul, smul_smul, ← hu2, ← hN]
      congr 1
      field_simp
      ring

theorem power_iteration_div_le {r c : ℕ} (d : ℝ) (hd : 1 ≤ d)
    (M : Matrix (Fin r) (Fin c) ℝ) (u0 : Fin r → ℝ) :
    power_iteration u0 ((1 / d) • M) ≤ (1 / d) * power_iteration u0 M := by
  have hd0 : 0 < d := lt_of_lt_of_le one_pos hd
  obtain ⟨t, ht0, ht1, heq⟩ := powerIterate_div d hd M u0 26
  unfold power_iteration
  rw [heq, Matrix.vecMul_smul, vecMul_smul_matrix, smul_smul, vecNorm_smul,
    abs_of_pos (by positivity)]
  have hvn : 0 ≤ vecNorm (powerIterate M u0 26 ᵥ* M) := vecNorm_nonneg _
  have h1d0 : 0 < 1 / d := by positivity
  have key : 0 ≤ (1 - t) * ((1 / d) * vecNorm (powerIterate M u0 26 ᵥ* M)) :=
    mul_nonneg (by linarith) (by positivity)
  nlinarith [key]

/-- Claim C2 (confirmed): in APPLY, the parameter update is applied as
`p -= lr * sqrt(rows/cols) * update`; afterwards `p` is divided by the
ε-guarded factor `scale_down + 1e-12` with `scale_down ≥ 1` (so `p` is
rescaled down, never up), and the resulting parameter's power-iteration
estimate (same start vector) does not exceed `w_max * sqrt(rows/cols)`.
With `w_max = 1` and `scale = 1` the estimate is at most 1 (≤ 1 + any
tolerance). -/
theorem muon_apply_spectral_cap {r c : ℕ} (lr wmax : ℝ) (u0 : Fin r → ℝ)
    (p g : Matrix (Fin r) (Fin c) ℝ) (hw : 0 < wmax * muonScale r c) :
    (muonApplyParam lr wmax u0 p g).1
        = (1 / ((muonApplyParam lr wmax u0 p g).2.2 + 1e-12)) •
            (p - (lr * muonScale r c) • g) ∧
    1 ≤ (muonApplyParam lr wmax u0 p g).2.2 ∧
    power_iteration u0 (muonApplyParam lr wmax u0 p g).1 ≤ wmax * muonScale r c := by
  unfold muonApplyParam
  dsimp only
  set W := wmax * muonScale r c with hW
  set p1 := p + (-(lr * muonScale r c)) • g with hp1
  set sigma := power_iteration u0 p1 with hsigma
  set sd := max 1 (sigma / W) with hsd
  have hsub : p1 = p - (lr * muonScale r c) • g := by
    rw [hp1, neg_smul, sub_eq_add_neg]
  have hsd1 : 1 ≤ sd := le_max_left _ _
  have hD : (0 : ℝ) < sd + 1e-12 := by nlinarith
  have hD1 : 1 ≤ sd + 1e-12 := by nlinarith
  refine ⟨by rw [hsub], hsd1, ?_⟩
  have hcap := power_iteration_div_le (sd + 1e-12) hD1 p1 u0
  have hσ0 : 0 ≤ sigma := vecNorm_nonneg _
  have hkey : sigma ≤ W * (sd + 1e-12) := by
    rcases le_or_lt (sigma / W) 1 with hc | hc
    · have : sd = 1 := by rw [hsd, max_eq_left hc]
      rw [this]
      have : sigma ≤ W := by
        rw [div_le_one hw] at hc
        exact hc
      nlinarith
    · have : sd = sigma / W := by rw [hsd, max_eq_right (le_of_lt hc)]
      rw [this]
      have hWs : W * (sigma / W) = sigma := by field_simp
      nlinarith [mul_pos hw (by norm_num : (0:ℝ) < 1e-12)]
  calc power_iteration u0 ((1 / (sd + 1e-12)) • p1)
      ≤ (1 / (sd + 1e-12)) * sigma := hcap
    _ ≤ W := by
        rw [div_mul_eq_mul_div, one_mul, div_le_iff hD]
        linarith [hkey]

/-- Witness for `muon_apply_spectral_cap` at a 1×1 zero parameter with
`lr = 0`, `w_max = 1` (square shape, so `scale = 1`). -/
theorem muon_apply_spectral_cap_witness :
    (muonApplyParam 0 1 (fun _ => 0) (0 : Matrix (Fin 1) (Fin 1) ℝ) 0).1
        = (1 / ((muonApplyParam 0 1 (fun _ => 0) (0 : Matrix (Fin 1) (Fin 1) ℝ) 0).2.2 + 1e-12)) •
            ((0 : Matrix (Fin 1) (Fin 1) ℝ) - (0 * muonScale 1 1) • 0) ∧
    1 ≤ (muonApplyParam 0 1 (fun _ => 0) (0 : Matrix (Fin 1) (Fin 1) ℝ) 0).2.2 ∧
    power_iteration (fun _ => 0) (muonApplyParam 0 1 (fun _ => 0) (0 : Matrix (Fin 1) (Fin 1) ℝ) 0).1
        ≤ 1 * muonScale 1 1 :=
  muon_apply_spectral_cap 0 1 (fun _ => 0) 0 0
    (by
      unfold muonScale
      norm_num)

/-! ## Claim C4 machinery: the verified enclosure -/

theorem forceNat_eq {α : Type} (x : ℕ) (k : ℕ → α) : forceNat x k = k x := by
  cases x <;> rfl

theorem forcePair_eq {α : Type} (x : ℕ × ℕ) (k : ℕ → ℕ → α) : forcePair x k = k x.1 x.2 := by
  cases x
  rfl

set_option maxRecDepth 100000 in
set_option maxHeartbeats 64000000 in
theorem phiPartition_check : checkLeavesN phiPartition = true := by decide

set_option maxHeartbeats 1000000 in
theorem phiCounterChain :
    Nat.ble (Nat.mul 12101 SKn) (Nat.mul (phiChainN 18243205 18243206).1 10000) = true := by
  decide




/-! ## Claim C4: the singular values of the orthogonalized output

The soundness chain: `phiStepN_eq` restates the forced checker; the four
`step_*` lemmas bound one quintic eigenvalue step by exact second-order
interval arithmetic; `phiStepN_sound`, `phiChainN_sound` and
`checkLeavesN_sound` lift them to the five-step chain over the certified
partition; `phiChainRN_le` combines the kernel-checked certificate
`phiPartition_check` with the analytic small-eigenvalue bound; the spectral
theorem transfers the eigenvalue bound to the singular values of the
output matrix. -/

theorem cast_nsub (a b : ℕ) : ((a - b : ℕ) : ℝ) = max 0 ((a:ℝ) - (b:ℝ)) := by
  rcases le_total b a with h | h
  · rw [Nat.cast_sub h, max_eq_right (by
      have : (b:ℝ) ≤ (a:ℝ) := Nat.cast_le.2 h
      linarith)]
  · rw [Nat.sub_eq_zero_of_le h, max_eq_left (by
      have : (a:ℝ) ≤ (b:ℝ) := Nat.cast_le.2 h
      simp
      linarith)]
    simp

theorem natDiv_cast_lt (x D : ℕ) (hD : 0 < D) : (x:ℝ)/(D:ℝ) < ((x / D : ℕ):ℝ) + 1 := by
  have hDr : (0:ℝ) < (D:ℝ) := by exact_mod_cast hD
  rw [div_lt_iff hDr]
  have h1 : x < D * (x / D) + D := by
    have := Nat.div_add_mod x D
    have := Nat.mod_lt x hD
    omega
  have h2 : (x:ℝ) < (D:ℝ) * ((x / D : ℕ):ℝ) + (D:ℝ) := by exact_mod_cast h1
  nlinarith [h2]

theorem interval_mul_bounds (y Y r rlo rhi : ℝ) (hy0 : 0 ≤ y) (hyY : y ≤ Y)
    (hr1 : rlo ≤ r) (hr2 : r ≤ rhi) :
    Y * min 0 rlo ≤ y * r ∧ y * r ≤ Y * max 0 rhi := by
  have hY0 : 0 ≤ Y := le_trans hy0 hyY
  rcases le_or_lt 0 r with hr | hr
  · constructor
    · have h1 : Y * min 0 rlo ≤ 0 := mul_nonpos_of_nonneg_of_nonpos hY0 (min_le_left 0 rlo)
      have h2 : 0 ≤ y * r := mul_nonneg hy0 hr
      linarith
    · have h1 : y * r ≤ Y * r := mul_le_mul_of_nonneg_right hyY hr
      have h2 : Y * r ≤ Y * max 0 rhi :=
        mul_le_mul_of_nonneg_left (le_trans hr2 (le_max_right 0 rhi)) hY0
      linarith
  · constructor
    · have h1 : Y * r ≤ y * r := mul_le_mul_of_nonpos_right hyY (le_of_lt hr)
      have h2 : Y * min 0 rlo ≤ Y * r :=
        mul_le_mul_of_nonneg_left (le_trans (min_le_right 0 rlo) hr1) hY0
      linarith
    · have h1 : y * r ≤ 0 := mul_nonpos_of_nonneg_of_nonpos hy0 (le_of_lt hr)
      have h2 : 0 ≤ Y * max 0 rhi := mul_nonneg hY0 (le_max_left 0 rhi)
      linarith

theorem phiStepN_eq (a bp c l h : ℕ) :
    phiStepN a bp c l h = (fDn a bp c l h, fUp a bp c l h) := by
  simp only [phiStepN, forceNat_eq]
  rfl

theorem SKn_pos : (0:ℝ) < (SKn : ℝ) := by norm_num [SKn]

theorem SK2n_eq : (SK2n : ℝ) = (SKn : ℝ) ^ 2 := by norm_num [SKn, SK2n]

theorem SK3n_eq : (SK3n : ℝ) = (SKn : ℝ) ^ 3 := by norm_num [SKn, SK3n]

theorem SK4n_eq : (SK4n : ℝ) = (SKn : ℝ) ^ 4 := by norm_num [SKn, SK4n]

theorem ESK4n_eq : (ESK4n : ℝ) = 100000000 * (SKn : ℝ) ^ 4 := by
  norm_num [SKn, ESK4n]

theorem phiRN_eq_polyE (a bp c : ℕ) (t : ℝ) :
    phiRN a bp c t = polyE a bp c t / 100000000 := by
  unfold phiRN polyE fE1 fE2 fE3 fE4 fE5
  push_cast
  field_simp
  ring

theorem polyE_taylor (a bp c : ℕ) (x t : ℝ) :
    polyE a bp c t = polyE a bp c x + (t - x) * dpolyE a bp c x
      + (t - x) ^ 2 * remE a bp c x t := by
  unfold polyE dpolyE remE
  ring

theorem fPP_sub_fPM (a bp c x : ℕ) :
    (fPP a bp c x : ℝ) - (fPM a bp c x : ℝ)
      = polyE a bp c ((x : ℝ) / (SKn : ℝ)) * (SKn : ℝ) ^ 5 := by
  have hS : (SKn : ℝ) ≠ 0 := ne_of_gt SKn_pos
  unfold fPP fPM polyE
  push_cast
  rw [SK2n_eq, SK3n_eq, SK4n_eq]
  field_simp
  ring

theorem fQP_sub_fQM (a bp c x : ℕ) :
    (fQP a bp c x : ℝ) - (fQM a bp c x : ℝ)
      = dpolyE a bp c ((x : ℝ) / (SKn : ℝ)) * (SKn : ℝ) ^ 4 := by
  have hS : (SKn : ℝ) ≠ 0 := ne_of_gt SKn_pos
  unfold fQP fQM dpolyE
  push_cast
  rw [SK2n_eq, SK3n_eq, SK4n_eq]
  field_simp
  ring

theorem fRP_sub_fRM (a bp c x y : ℕ) :
    (fRP a bp c x : ℝ) - (fRM a bp c y : ℝ)
      = remB a bp c ((x : ℝ) / (SKn : ℝ)) ((y : ℝ) / (SKn : ℝ)) * (SKn : ℝ) ^ 3 := by
  have hS : (SKn : ℝ) ≠ 0 := ne_of_gt SKn_pos
  unfold fRP fRM remB
  push_cast
  rw [SK2n_eq, SK3n_eq]
  field_simp
  ring

theorem min_zero_eq (r : ℝ) : min 0 r = - max 0 (-r) := by
  rcases le_total 0 r with h | h
  · rw [min_eq_left h, max_eq_left (by linarith)]
    ring
  · rw [min_eq_right h, max_eq_right (by linarith)]
    ring

theorem remE_le_remB (a bp c : ℕ) (lo hi x t : ℝ) (h0 : 0 ≤ lo) (hx1 : lo ≤ x)
    (hx2 : x ≤ hi) (ht1 : lo ≤ t) (ht2 : t ≤ hi) :
    remE a bp c x t ≤ remB a bp c hi lo := by
  have hx0 : 0 ≤ x := le_trans h0 hx1
  have ht0 : 0 ≤ t := le_trans h0 ht1
  have hhi0 : 0 ≤ hi := le_trans hx0 hx2
  have e3nn : (0:ℝ) ≤ (fE3 a bp c : ℝ) := Nat.cast_nonneg _
  have e4nn : (0:ℝ) ≤ (fE4 bp c : ℝ) := Nat.cast_nonneg _
  have e5nn : (0:ℝ) ≤ (fE5 c : ℝ) := Nat.cast_nonneg _
  have m1 : t + 2 * x ≤ 3 * hi := by linarith
  have m2 : 6 * lo ^ 2 ≤ t ^ 2 + 2 * x * t + 3 * x ^ 2 := by
    nlinarith [mul_le_mul hx1 ht1 h0 hx0, pow_le_pow_left h0 ht1 2,
      pow_le_pow_left h0 hx1 2]
  have bt2 : t ^ 2 ≤ hi ^ 2 := pow_le_pow_left ht0 ht2 2
  have bx2 : x ^ 2 ≤ hi ^ 2 := pow_le_pow_left hx0 hx2 2
  have a1 : t ^ 3 ≤ hi ^ 3 := pow_le_pow_left ht0 ht2 3
  have a2 : x ^ 3 ≤ hi ^ 3 := pow_le_pow_left hx0 hx2 3
  have a3 : x * t ^ 2 ≤ hi ^ 3 := by
    have h1 : x * t ^ 2 ≤ hi * t ^ 2 := mul_le_mul_of_nonneg_right hx2 (sq_nonneg t)
    have h2 : hi * t ^ 2 ≤ hi * hi ^ 2 := mul_le_mul_of_nonneg_left bt2 hhi0
    nlinarith [h1, h2]
  have a4 : x ^ 2 * t ≤ hi ^ 3 := by
    have h1 : x ^ 2 * t ≤ x ^ 2 * hi := mul_le_mul_of_nonneg_left ht2 (sq_nonneg x)
    have h2 : x ^ 2 * hi ≤ hi ^ 2 * hi := mul_le_mul_of_nonneg_right bx2 hhi0
    nlinarith [h1, h2]
  have m3 : t ^ 3 + 2 * (x * t ^ 2) + 3 * (x ^ 2 * t) + 4 * x ^ 3 ≤ 10 * hi ^ 3 := by
    linarith
  have k3 := mul_le_mul_of_nonneg_left m1 e3nn
  have k4 := mul_le_mul_of_nonneg_left m2 e4nn
  have k5 := mul_le_mul_of_nonneg_left m3 e5nn
  unfold remE remB
  nlinarith [k3, k4, k5]

theorem remB_le_remE (a bp c : ℕ) (lo hi x t : ℝ) (h0 : 0 ≤ lo) (hx1 : lo ≤ x)
    (hx2 : x ≤ hi) (ht1 : lo ≤ t) (ht2 : t ≤ hi) :
    remB a bp c lo hi ≤ remE a bp c x t := by
  have hx0 : 0 ≤ x := le_trans h0 hx1
  have ht0 : 0 ≤ t := le_trans h0 ht1
  have hhi0 : 0 ≤ hi := le_trans hx0 hx2
  have e3nn : (0:ℝ) ≤ (fE3 a bp c : ℝ) := Nat.cast_nonneg _
  have e4nn : (0:ℝ) ≤ (fE4 bp c : ℝ) := Nat.cast_nonneg _
  have e5nn : (0:ℝ) ≤ (fE5 c : ℝ) := Nat.cast_nonneg _
  have m1 : 3 * lo ≤ t + 2 * x := by linarith
  have m2 : t ^ 2 + 2 * x * t + 3 * x ^ 2 ≤ 6 * hi ^ 2 := by
    nlinarith [mul_le_mul hx2 ht2 ht0 hhi0, pow_le_pow_left ht0 ht2 2,
      pow_le_pow_left hx0 hx2 2]
  have a1 : lo ^ 3 ≤ t ^ 3 := pow_le_pow_left h0 ht1 3
  have a2 : lo ^ 3 ≤ x ^ 3 := pow_le_pow_left h0 hx1 3
  have a3 : lo ^ 3 ≤ x * t ^ 2 := by
    have h1 : lo * lo ^ 2 ≤ x * t ^ 2 :=
      mul_le_mul hx1 (pow_le_pow_left h0 ht1 2) (sq_nonneg lo) hx0
    nlinarith [h1]
  have a4 : lo ^ 3 ≤ x ^ 2 * t := by
    have h1 : lo ^ 2 * lo ≤ x ^ 2 * t :=
      mul_le_mul (pow_le_pow_left h0 hx1 2) ht1 h0 (sq_nonneg x)
    nlinarith [h1]
  have m3 : 10 * lo ^ 3 ≤ t ^ 3 + 2 * (x * t ^ 2) + 3 * (x ^ 2 * t) + 4 * x ^ 3 := by
    linarith
  have k3 := mul_le_mul_of_nonneg_left m1 e3nn
  have k4 := mul_le_mul_of_nonneg_left m2 e4nn
  have k5 := mul_le_mul_of_nonneg_left m3 e5nn
  unfold remE remB
  nlinarith [k3, k4, k5]

theorem ble_false_lt (m n : ℕ) (h : Nat.ble m n = false) : n < m := by
  have : ¬ (m ≤ n) := by
    intro hle
    rw [Nat.ble_eq_true_of_le hle] at h
    exact Bool.false_ne_true h.symm
  omega

theorem step_upper_l (a bp c l h : ℕ) (t : ℝ) (hlh : l ≤ h)
    (htl : (l:ℝ) / (SKn:ℝ) ≤ t) (hth : t ≤ (h:ℝ) / (SKn:ℝ)) :
    polyE a bp c t * (SKn:ℝ) ^ 5 ≤ (fUP1 a bp c l h : ℝ) - (fPM a bp c l : ℝ) := by
  have hS : (0:ℝ) < (SKn:ℝ) := SKn_pos
  have hL0 : 0 ≤ (l:ℝ) / (SKn:ℝ) := div_nonneg (Nat.cast_nonneg l) (le_of_lt hS)
  have hLH : (l:ℝ) / (SKn:ℝ) ≤ (h:ℝ) / (SKn:ℝ) := le_trans htl hth
  have hu0 : 0 ≤ (t - (l:ℝ) / (SKn:ℝ)) * (SKn:ℝ) :=
    mul_nonneg (by linarith) (le_of_lt hS)
  have htS : t * (SKn:ℝ) ≤ (h:ℝ) := (le_div_iff hS).1 hth
  have hLS : (l:ℝ) / (SKn:ℝ) * (SKn:ℝ) = (l:ℝ) := div_mul_cancel₀ _ (ne_of_gt hS)
  have hW : (t - (l:ℝ) / (SKn:ℝ)) * (SKn:ℝ) ≤ (h:ℝ) - (l:ℝ) := by
    rw [sub_mul, hLS]
    linarith
  have hWcast : ((h - l : ℕ) : ℝ) = (h:ℝ) - (l:ℝ) := by
    rw [Nat.cast_sub hlh]
  have hQ := fQP_sub_fQM a bp c l
  have hDbound := (interval_mul_bounds ((t - (l:ℝ) / (SKn:ℝ)) * (SKn:ℝ))
      ((h:ℝ) - (l:ℝ)) (dpolyE a bp c ((l:ℝ) / (SKn:ℝ)) * (SKn:ℝ) ^ 4)
      (dpolyE a bp c ((l:ℝ) / (SKn:ℝ)) * (SKn:ℝ) ^ 4)
      (dpolyE a bp c ((l:ℝ) / (SKn:ℝ)) * (SKn:ℝ) ^ 4)
      hu0 hW le_rfl le_rfl).2
  have hQcast : (((h - l) * (fQP a bp c l - fQM a bp c l) : ℕ) : ℝ)
      = ((h:ℝ) - (l:ℝ)) * max 0 (dpolyE a bp c ((l:ℝ) / (SKn:ℝ)) * (SKn:ℝ) ^ 4) := by
    rw [Nat.cast_mul, hWcast, cast_nsub, hQ]
  have hremH : remE a bp c ((l:ℝ) / (SKn:ℝ)) t
      ≤ remB a bp c ((h:ℝ) / (SKn:ℝ)) ((l:ℝ) / (SKn:ℝ)) :=
    remE_le_remB a bp c ((l:ℝ) / (SKn:ℝ)) ((h:ℝ) / (SKn:ℝ)) ((l:ℝ) / (SKn:ℝ)) t
      hL0 le_rfl hLH htl hth
  have hu2 : ((t - (l:ℝ) / (SKn:ℝ)) * (SKn:ℝ)) ^ 2 ≤ ((h:ℝ) - (l:ℝ)) ^ 2 :=
    pow_le_pow_left hu0 hW 2
  have hremS : remE a bp c ((l:ℝ) / (SKn:ℝ)) t * (SKn:ℝ) ^ 3
      ≤ remB a bp c ((h:ℝ) / (SKn:ℝ)) ((l:ℝ) / (SKn:ℝ)) * (SKn:ℝ) ^ 3 :=
    mul_le_mul_of_nonneg_right hremH (by positivity)
  have hR2 := (interval_mul_bounds (((t - (l:ℝ) / (SKn:ℝ)) * (SKn:ℝ)) ^ 2)
      (((h:ℝ) - (l:ℝ)) ^ 2) (remE a bp c ((l:ℝ) / (SKn:ℝ)) t * (SKn:ℝ) ^ 3)
      (remE a bp c ((l:ℝ) / (SKn:ℝ)) t * (SKn:ℝ) ^ 3)
      (remB a bp c ((h:ℝ) / (SKn:ℝ)) ((l:ℝ) / (SKn:ℝ)) * (SKn:ℝ) ^ 3)
      (sq_nonneg _) hu2 le_rfl hremS).2
  have hRcast := fRP_sub_fRM a bp c h l
  have hwrhicast : ((fWrhi a bp c l h : ℕ) : ℝ)
      = ((h:ℝ) - (l:ℝ)) ^ 2
        * max 0 (remB a bp c ((h:ℝ) / (SKn:ℝ)) ((l:ℝ) / (SKn:ℝ)) * (SKn:ℝ) ^ 3) := by
    unfold fWrhi
    rw [Nat.cast_mul, Nat.cast_mul, hWcast, cast_nsub, hRcast]
    ring
  have hPcast := fPP_sub_fPM a bp c l
  have hUP1 : ((fUP1 a bp c l h : ℕ) : ℝ)
      = (fPP a bp c l : ℝ) + (((h - l) * (fQP a bp c l - fQM a bp c l) : ℕ) : ℝ)
        + ((fWrhi a bp c l h : ℕ) : ℝ) := by
    unfold fUP1
    rw [Nat.cast_add, Nat.cast_add]
  have hexp : polyE a bp c t * (SKn:ℝ) ^ 5
      = polyE a bp c ((l:ℝ) / (SKn:ℝ)) * (SKn:ℝ) ^ 5
        + ((t - (l:ℝ) / (SKn:ℝ)) * (SKn:ℝ))
          * (dpolyE a bp c ((l:ℝ) / (SKn:ℝ)) * (SKn:ℝ) ^ 4)
        + ((t - (l:ℝ) / (SKn:ℝ)) * (SKn:ℝ)) ^ 2
          * (remE a bp c ((l:ℝ) / (SKn:ℝ)) t * (SKn:ℝ) ^ 3) := by
    rw [polyE_taylor a bp c ((l:ℝ) / (SKn:ℝ)) t]
    ring
  linarith [hexp, hDbound, hR2, hPcast, hQcast, hwrhicast, hUP1]

theorem step_upper_h (a bp c l h : ℕ) (t : ℝ) (hlh : l ≤ h)
    (htl : (l:ℝ) / (SKn:ℝ) ≤ t) (hth : t ≤ (h:ℝ) / (SKn:ℝ)) :
    polyE a bp c t * (SKn:ℝ) ^ 5 ≤ (fUP2 a bp c l h : ℝ) - (fPM a bp c h : ℝ) := by
  have hS : (0:ℝ) < (SKn:ℝ) := SKn_pos
  have hL0 : 0 ≤ (l:ℝ) / (SKn:ℝ) := div_nonneg (Nat.cast_nonneg l) (le_of_lt hS)
  have hLH : (l:ℝ) / (SKn:ℝ) ≤ (h:ℝ) / (SKn:ℝ) := le_trans htl hth
  have hv0 : 0 ≤ ((h:ℝ) / (SKn:ℝ) - t) * (SKn:ℝ) :=
    mul_nonneg (by linarith) (le_of_lt hS)
  have hlt : (l:ℝ) ≤ t * (SKn:ℝ) := (div_le_iff hS).1 htl
  have hHS : (h:ℝ) / (SKn:ℝ) * (SKn:ℝ) = (h:ℝ) := div_mul_cancel₀ _ (ne_of_gt hS)
  have hW : ((h:ℝ) / (SKn:ℝ) - t) * (SKn:ℝ) ≤ (h:ℝ) - (l:ℝ) := by
    rw [sub_mul, hHS]
    linarith
  have hWcast : ((h - l : ℕ) : ℝ) = (h:ℝ) - (l:ℝ) := by
    rw [Nat.cast_sub hlh]
  have hQ := fQP_sub_fQM a bp c h
  have hDbound := (interval_mul_bounds (((h:ℝ) / (SKn:ℝ) - t) * (SKn:ℝ))
      ((h:ℝ) - (l:ℝ)) (-(dpolyE a bp c ((h:ℝ) / (SKn:ℝ)) * (SKn:ℝ) ^ 4))
      (-(dpolyE a bp c ((h:ℝ) / (SKn:ℝ)) * (SKn:ℝ) ^ 4))
      (-(dpolyE a bp c ((h:ℝ) / (SKn:ℝ)) * (SKn:ℝ) ^ 4))
      hv0 hW le_rfl le_rfl).2
  have hQneg : (fQM a bp c h : ℝ) - (fQP a bp c h : ℝ)
      = -(dpolyE a bp c ((h:ℝ) / (SKn:ℝ)) * (SKn:ℝ) ^ 4) := by
    linarith [hQ]
  have hQcast : (((h - l) * (fQM a bp c h - fQP a bp c h) : ℕ) : ℝ)
      = ((h:ℝ) - (l:ℝ)) * max 0 (-(dpolyE a bp c ((h:ℝ) / (SKn:ℝ)) * (SKn:ℝ) ^ 4)) := by
    rw [Nat.cast_mul, hWcast, cast_nsub, hQneg]
  have hremH : remE a bp c ((h:ℝ) / (SKn:ℝ)) t
      ≤ remB a bp c ((h:ℝ) / (SKn:ℝ)) ((l:ℝ) / (SKn:ℝ)) :=
    remE_le_remB a bp c ((l:ℝ) / (SKn:ℝ)) ((h:ℝ) / (SKn:ℝ)) ((h:ℝ) / (SKn:ℝ)) t
      hL0 hLH le_rfl htl hth
  have hv2 : (((h:ℝ) / (SKn:ℝ) - t) * (SKn:ℝ)) ^ 2 ≤ ((h:ℝ) - (l:ℝ)) ^ 2 :=
    pow_le_pow_left hv0 hW 2
  have hremS : remE a bp c ((h:ℝ) / (SKn:ℝ)) t * (SKn:ℝ) ^ 3
      ≤ remB a bp c ((h:ℝ) / (SKn:ℝ)) ((l:ℝ) / (SKn:ℝ)) * (SKn:ℝ) ^ 3 :=
    mul_le_mul_of_nonneg_right hremH (by positivity)
  have hR2 := (interval_mul_bounds ((((h:ℝ) / (SKn:ℝ) - t) * (SKn:ℝ)) ^ 2)
      (((h:ℝ) - (l:ℝ)) ^ 2) (remE a bp c ((h:ℝ) / (SKn:ℝ)) t * (SKn:ℝ) ^ 3)
      (remE a bp c ((h:ℝ) / (SKn:ℝ)) t * (SKn:ℝ) ^ 3)
      (remB a bp c ((h:ℝ) / (SKn:ℝ)) ((l:ℝ) / (SKn:ℝ)) * (SKn:ℝ) ^ 3)
      (sq_nonneg _) hv2 le_rfl hremS).2
  have hRcast := fRP_sub_fRM a bp c h l
  have hwrhicast : ((fWrhi a bp c l h : ℕ) : ℝ)
      = ((h:ℝ) - (l:ℝ)) ^ 2
        * max 0 (remB a bp c ((h:ℝ) / (SKn:ℝ)) ((l:ℝ) / (SKn:ℝ)) * (SKn:ℝ) ^ 3) := by
    unfold fWrhi
    rw [Nat.cast_mul, Nat.cast_mul, hWcast, cast_nsub, hRcast]
    ring
  have hPcast := fPP_sub_fPM a bp c h
  have hUP2 : ((fUP2 a bp c l h : ℕ) : ℝ)
      = (fPP a bp c h : ℝ) + (((h - l) * (fQM a bp c h - fQP a bp c h) : ℕ) : ℝ)
        + ((fWrhi a bp c l h : ℕ) : ℝ) := by
    unfold fUP2
    rw [Nat.cast_add, Nat.cast_add]
  have hexp : polyE a bp c t * (SKn:ℝ) ^ 5
      = polyE a bp c ((h:ℝ) / (SKn:ℝ)) * (SKn:ℝ) ^ 5
        + (((h:ℝ) / (SKn:ℝ) - t) * (SKn:ℝ))
          * (-(dpolyE a bp c ((h:ℝ) / (SKn:ℝ)) * (SKn:ℝ) ^ 4))
        + (((h:ℝ) / (SKn:ℝ) - t) * (SKn:ℝ)) ^ 2
          * (remE a bp c ((h:ℝ) / (SKn:ℝ)) t * (SKn:ℝ) ^ 3) := by
    rw [polyE_taylor a bp c ((h:ℝ) / (SKn:ℝ)) t]
    ring
  linarith [hexp, hDbound, hR2, hPcast, hQcast, hwrhicast, hUP2]

theorem step_lower_l (a bp c l h : ℕ) (t : ℝ) (hlh : l ≤ h)
    (htl : (l:ℝ) / (SKn:ℝ) ≤ t) (hth : t ≤ (h:ℝ) / (SKn:ℝ)) :
    (fPP a bp c l : ℝ) - (fDM1 a bp c l h : ℝ) ≤ polyE a bp c t * (SKn:ℝ) ^ 5 := by
  have hS : (0:ℝ) < (SKn:ℝ) := SKn_pos
  have hL0 : 0 ≤ (l:ℝ) / (SKn:ℝ) := div_nonneg (Nat.cast_nonneg l) (le_of_lt hS)
  have hLH : (l:ℝ) / (SKn:ℝ) ≤ (h:ℝ) / (SKn:ℝ) := le_trans htl hth
  have hu0 : 0 ≤ (t - (l:ℝ) / (SKn:ℝ)) * (SKn:ℝ) :=
    mul_nonneg (by linarith) (le_of_lt hS)
  have htS : t * (SKn:ℝ) ≤ (h:ℝ) := (le_div_iff hS).1 hth
  have hLS : (l:ℝ) / (SKn:ℝ) * (SKn:ℝ) = (l:ℝ) := div_mul_cancel₀ _ (ne_of_gt hS)
  have hW : (t - (l:ℝ) / (SKn:ℝ)) * (SKn:ℝ) ≤ (h:ℝ) - (l:ℝ) := by
    rw [sub_mul, hLS]
    linarith
  have hWcast : ((h - l : ℕ) : ℝ) = (h:ℝ) - (l:ℝ) := by
    rw [Nat.cast_sub hlh]
  have hQ := fQP_sub_fQM a bp c l
  have hDlow := (interval_mul_bounds ((t - (l:ℝ) / (SKn:ℝ)) * (SKn:ℝ))
      ((h:ℝ) - (l:ℝ)) (dpolyE a bp c ((l:ℝ) / (SKn:ℝ)) * (SKn:ℝ) ^ 4)
      (dpolyE a bp c ((l:ℝ) / (SKn:ℝ)) * (SKn:ℝ) ^ 4)
      (dpolyE a bp c ((l:ℝ) / (SKn:ℝ)) * (SKn:ℝ) ^ 4)
      hu0 hW le_rfl le_rfl).1
  have hQneg : (fQM a bp c l : ℝ) - (fQP a bp c l : ℝ)
      = -(dpolyE a bp c ((l:ℝ) / (SKn:ℝ)) * (SKn:ℝ) ^ 4) := by
    linarith [hQ]
  have hQcast : (((h - l) * (fQM a bp c l - fQP a bp c l) : ℕ) : ℝ)
      = ((h:ℝ) - (l:ℝ)) * max 0 (-(dpolyE a bp c ((l:ℝ) / (SKn:ℝ)) * (SKn:ℝ) ^ 4)) := by
    rw [Nat.cast_mul, hWcast, cast_nsub, hQneg]
  have hmm1 : min (0:ℝ) (dpolyE a bp c ((l:ℝ) / (SKn:ℝ)) * (SKn:ℝ) ^ 4)
      = - max 0 (-(dpolyE a bp c ((l:ℝ) / (SKn:ℝ)) * (SKn:ℝ) ^ 4)) := min_zero_eq _
  have hremLo : remB a bp c ((l:ℝ) / (SKn:ℝ)) ((h:ℝ) / (SKn:ℝ)) * (SKn:ℝ) ^ 3
      ≤ remE a bp c ((l:ℝ) / (SKn:ℝ)) t * (SKn:ℝ) ^ 3 :=
    mul_le_mul_of_nonneg_right
      (remB_le_remE a bp c ((l:ℝ) / (SKn:ℝ)) ((h:ℝ) / (SKn:ℝ)) ((l:ℝ) / (SKn:ℝ)) t
        hL0 le_rfl hLH htl hth) (by positivity)
  have hu2 : ((t - (l:ℝ) / (SKn:ℝ)) * (SKn:ℝ)) ^ 2 ≤ ((h:ℝ) - (l:ℝ)) ^ 2 :=
    pow_le_pow_left hu0 hW 2
  have hR2 := (interval_mul_bounds (((t - (l:ℝ) / (SKn:ℝ)) * (SKn:ℝ)) ^ 2)
      (((h:ℝ) - (l:ℝ)) ^ 2) (remE a bp c ((l:ℝ) / (SKn:ℝ)) t * (SKn:ℝ) ^ 3)
      (remB a bp c ((l:ℝ) / (SKn:ℝ)) ((h:ℝ) / (SKn:ℝ)) * (SKn:ℝ) ^ 3)
      (remE a bp c ((l:ℝ) / (SKn:ℝ)) t * (SKn:ℝ) ^ 3)
      (sq_nonneg _) hu2 hremLo le_rfl).1
  have hRneg : (fRM a bp c h : ℝ) - (fRP a bp c l : ℝ)
      = -(remB a bp c ((l:ℝ) / (SKn:ℝ)) ((h:ℝ) / (SKn:ℝ)) * (SKn:ℝ) ^ 3) := by
    linarith [fRP_sub_fRM a bp c l h]
  have hwrlocast : ((fWrlo a bp c l h : ℕ) : ℝ)
      = ((h:ℝ) - (l:ℝ)) ^ 2
        * max 0 (-(remB a bp c ((l:ℝ) / (SKn:ℝ)) ((h:ℝ) / (SKn:ℝ)) * (SKn:ℝ) ^ 3)) := by
    unfold fWrlo
    rw [Nat.cast_mul, Nat.cast_mul, hWcast, cast_nsub, hRneg]
    ring
  have hmm2 : min (0:ℝ) (remB a bp c ((l:ℝ) / (SKn:ℝ)) ((h:ℝ) / (SKn:ℝ)) * (SKn:ℝ) ^ 3)
      = - max 0 (-(remB a bp c ((l:ℝ) / (SKn:ℝ)) ((h:ℝ) / (SKn:ℝ)) * (SKn:ℝ) ^ 3)) :=
    min_zero_eq _
  have hprod1 : ((h:ℝ) - (l:ℝ)) * min 0 (dpolyE a bp c ((l:ℝ) / (SKn:ℝ)) * (SKn:ℝ) ^ 4)
      = -(((h:ℝ) - (l:ℝ)) * max 0 (-(dpolyE a bp c ((l:ℝ) / (SKn:ℝ)) * (SKn:ℝ) ^ 4))) := by
    rw [hmm1]
    ring
  have hprod2 : ((h:ℝ) - (l:ℝ)) ^ 2
        * min 0 (remB a bp c ((l:ℝ) / (SKn:ℝ)) ((h:ℝ) / (SKn:ℝ)) * (SKn:ℝ) ^ 3)
      = -(((h:ℝ) - (l:ℝ)) ^ 2
        * max 0 (-(remB a bp c ((l:ℝ) / (SKn:ℝ)) ((h:ℝ) / (SKn:ℝ)) * (SKn:ℝ) ^ 3))) := by
    rw [hmm2]
    ring
  have hPcast := fPP_sub_fPM a bp c l
  have hDM1 : ((fDM1 a bp c l h : ℕ) : ℝ)
      = (fPM a bp c l : ℝ) + ((((h - l) * (fQM a bp c l - fQP a bp c l) : ℕ) : ℝ)
        + ((fWrlo a bp c l h : ℕ) : ℝ)) := by
    unfold fDM1
    rw [Nat.cast_add, Nat.cast_add]
  have hexp : polyE a bp c t * (SKn:ℝ) ^ 5
      = polyE a bp c ((l:ℝ) / (SKn:ℝ)) * (SKn:ℝ) ^ 5
        + ((t - (l:ℝ) / (SKn:ℝ)) * (SKn:ℝ))
          * (dpolyE a bp c ((l:ℝ) / (SKn:ℝ)) * (SKn:ℝ) ^ 4)
        + ((t - (l:ℝ) / (SKn:ℝ)) * (SKn:ℝ)) ^ 2
          * (remE a bp c ((l:ℝ) / (SKn:ℝ)) t * (SKn:ℝ) ^ 3) := by
    rw [polyE_taylor a bp c ((l:ℝ) / (SKn:ℝ)) t]
    ring
  linarith [hexp, hDlow, hR2, hPcast, hQcast, hwrlocast, hDM1, hprod1, hprod2]

theorem step_lower_h (a bp c l h : ℕ) (t : ℝ) (hlh : l ≤ h)
    (htl : (l:ℝ) / (SKn:ℝ) ≤ t) (hth : t ≤ (h:ℝ) / (SKn:ℝ)) :
    (fPP a bp c h : ℝ) - (fDM2 a bp c l h : ℝ) ≤ polyE a bp c t * (SKn:ℝ) ^ 5 := by
  have hS : (0:ℝ) < (SKn:ℝ) := SKn_pos
  have hL0 : 0 ≤ (l:ℝ) / (SKn:ℝ) := div_nonneg (Nat.cast_nonneg l) (le_of_lt hS)
  have hLH : (l:ℝ) / (SKn:ℝ) ≤ (h:ℝ) / (SKn:ℝ) := le_trans htl hth
  have hv0 : 0 ≤ ((h:ℝ) / (SKn:ℝ) - t) * (SKn:ℝ) :=
    mul_nonneg (by linarith) (le_of_lt hS)
  have hlt : (l:ℝ) ≤ t * (SKn:ℝ) := (div_le_iff hS).1 htl
  have hHS : (h:ℝ) / (SKn:ℝ) * (SKn:ℝ) = (h:ℝ) := div_mul_cancel₀ _ (ne_of_gt hS)
  have hW : ((h:ℝ) / (SKn:ℝ) - t) * (SKn:ℝ) ≤ (h:ℝ) - (l:ℝ) := by
    rw [sub_mul, hHS]
    linarith
  have hWcast : ((h - l : ℕ) : ℝ) = (h:ℝ) - (l:ℝ) := by
    rw [Nat.cast_sub hlh]
  have hQ := fQP_sub_fQM a bp c h
  have hDlow := (interval_mul_bounds (((h:ℝ) / (SKn:ℝ) - t) * (SKn:ℝ))
      ((h:ℝ) - (l:ℝ)) (-(dpolyE a bp c ((h:ℝ) / (SKn:ℝ)) * (SKn:ℝ) ^ 4))
      (-(dpolyE a bp c ((h:ℝ) / (SKn:ℝ)) * (SKn:ℝ) ^ 4))
      (-(dpolyE a bp c ((h:ℝ) / (SKn:ℝ)) * (SKn:ℝ) ^ 4))
      hv0 hW le_rfl le_rfl).1
  have hQcast : (((h - l) * (fQP a bp c h - fQM a bp c h) : ℕ) : ℝ)
      = ((h:ℝ) - (l:ℝ)) * max 0 (dpolyE a bp c ((h:ℝ) / (SKn:ℝ)) * (SKn:ℝ) ^ 4) := by
    rw [Nat.cast_mul, hWcast, cast_nsub, hQ]
  have hmm1 : min (0:ℝ) (-(dpolyE a bp c ((h:ℝ) / (SKn:ℝ)) * (SKn:ℝ) ^ 4))
      = - max 0 (dpolyE a bp c ((h:ℝ) / (SKn:ℝ)) * (SKn:ℝ) ^ 4) := by
    rw [min_zero_eq, neg_neg]
  have hremLo : remB a bp c ((l:ℝ) / (SKn:ℝ)) ((h:ℝ) / (SKn:ℝ)) * (SKn:ℝ) ^ 3
      ≤ remE a bp c ((h:ℝ) / (SKn:ℝ)) t * (SKn:ℝ) ^ 3 :=
    mul_le_mul_of_nonneg_right
      (remB_le_remE a bp c ((l:ℝ) / (SKn:ℝ)) ((h:ℝ) / (SKn:ℝ)) ((h:ℝ) / (SKn:ℝ)) t
        hL0 hLH le_rfl htl hth) (by positivity)
  have hv2 : (((h:ℝ) / (SKn:ℝ) - t) * (SKn:ℝ)) ^ 2 ≤ ((h:ℝ) - (l:ℝ)) ^ 2 :=
    pow_le_pow_left hv0 hW 2
  have hR2 := (interval_mul_bounds ((((h:ℝ) / (SKn:ℝ) - t) * (SKn:ℝ)) ^ 2)
      (((h:ℝ) - (l:ℝ)) ^ 2) (remE a bp c ((h:ℝ) / (SKn:ℝ)) t * (SKn:ℝ) ^ 3)
      (remB a bp c ((l:ℝ) / (SKn:ℝ)) ((h:ℝ) / (SKn:ℝ)) * (SKn:ℝ) ^ 3)
      (remE a bp c ((h:ℝ) / (SKn:ℝ)) t * (SKn:ℝ) ^ 3)
      (sq_nonneg _) hv2 hremLo le_rfl).1
  have hRneg : (fRM a bp c h : ℝ) - (fRP a bp c l : ℝ)
      = -(remB a bp c ((l:ℝ) / (SKn:ℝ)) ((h:ℝ) / (SKn:ℝ)) * (SKn:ℝ) ^ 3) := by
    linarith [fRP_sub_fRM a bp c l h]
  have hwrlocast : ((fWrlo a bp c l h : ℕ) : ℝ)
      = ((h:ℝ) - (l:ℝ)) ^ 2
        * max 0 (-(remB a bp c ((l:ℝ) / (SKn:ℝ)) ((h:ℝ) / (SKn:ℝ)) * (SKn:ℝ) ^ 3)) := by
    unfold fWrlo
    rw [Nat.cast_mul, Nat.cast_mul, hWcast, cast_nsub, hRneg]
    ring
  have hmm2 : min (0:ℝ) (remB a bp c ((l:ℝ) / (SKn:ℝ)) ((h:ℝ) / (SKn:ℝ)) * (SKn:ℝ) ^ 3)
      = - max 0 (-(remB a bp c ((l:ℝ) / (SKn:ℝ)) ((h:ℝ) / (SKn:ℝ)) * (SKn:ℝ) ^ 3)) :=
    min_zero_eq _
  have hprod1 : ((h:ℝ) - (l:ℝ)) * min 0 (-(dpolyE a bp c ((h:ℝ) / (SKn:ℝ)) * (SKn:ℝ) ^ 4))
      = -(((h:ℝ) - (l:ℝ)) * max 0 (dpolyE a bp c ((h:ℝ) / (SKn:ℝ)) * (SKn:ℝ) ^ 4)) := by
    rw [hmm1]
    ring
  have hprod2 : ((h:ℝ) - (l:ℝ)) ^ 2
        * min 0 (remB a bp c ((l:ℝ) / (SKn:ℝ)) ((h:ℝ) / (SKn:ℝ)) * (SKn:ℝ) ^ 3)
      = -(((h:ℝ) - (l:ℝ)) ^ 2
        * max 0 (-(remB a bp c ((l:ℝ) / (SKn:ℝ)) ((h:ℝ) / (SKn:ℝ)) * (SKn:ℝ) ^ 3))) := by
    rw [hmm2]
    ring
  have hPcast := fPP_sub_fPM a bp c h
  have hDM2 : ((fDM2 a bp c l h : ℕ) : ℝ)
      = (fPM a bp c h : ℝ) + ((((h - l) * (fQP a bp c h - fQM a bp c h) : ℕ) : ℝ)
        + ((fWrlo a bp c l h : ℕ) : ℝ)) := by
    unfold fDM2
    rw [Nat.cast_add, Nat.cast_add]
  have hexp : polyE a bp c t * (SKn:ℝ) ^ 5
      = polyE a bp c ((h:ℝ) / (SKn:ℝ)) * (SKn:ℝ) ^ 5
        + (((h:ℝ) / (SKn:ℝ) - t) * (SKn:ℝ))
          * (-(dpolyE a bp c ((h:ℝ) / (SKn:ℝ)) * (SKn:ℝ) ^ 4))
        + (((h:ℝ) / (SKn:ℝ) - t) * (SKn:ℝ)) ^ 2
          * (remE a bp c ((h:ℝ) / (SKn:ℝ)) t * (SKn:ℝ) ^ 3) := by
    rw [polyE_taylor a bp c ((h:ℝ) / (SKn:ℝ)) t]
    ring
  linarith [hexp, hDlow, hR2, hPcast, hQcast, hwrlocast, hDM2, hprod1, hprod2]

theorem ESK4n_pos : (0:ℝ) < (ESK4n : ℝ) := by norm_num [ESK4n]

theorem dn_branch (P D : ℕ) (y : ℝ) (hy0 : 0 ≤ y)
    (hPD : (P:ℝ) - (D:ℝ) ≤ y * (SKn:ℝ) ^ 5) :
    (((P - D) / ESK4n : ℕ) : ℝ) / (SKn:ℝ) ≤ y / 100000000 := by
  have hS : (0:ℝ) < (SKn:ℝ) := SKn_pos
  have hE : (0:ℝ) < (ESK4n:ℝ) := ESK4n_pos
  have h1 : (((P - D) / ESK4n : ℕ) : ℝ) ≤ ((P - D : ℕ) : ℝ) / (ESK4n : ℝ) :=
    Nat.cast_div_le
  have h2 : ((P - D : ℕ) : ℝ) ≤ y * (SKn:ℝ) ^ 5 := by
    rw [cast_nsub]
    exact max_le (by positivity) hPD
  have h3 : (((P - D) / ESK4n : ℕ) : ℝ) ≤ y * (SKn:ℝ) ^ 5 / (ESK4n : ℝ) :=
    le_trans h1 ((div_le_div_right hE).2 h2)
  have h4 : y * (SKn:ℝ) ^ 5 / (ESK4n : ℝ) = y * (SKn:ℝ) / 100000000 := by
    rw [ESK4n_eq]
    field_simp
    ring
  rw [div_le_div_iff hS (by norm_num : (0:ℝ) < 100000000)]
  rw [h4] at h3
  have h5 : (((P - D) / ESK4n : ℕ) : ℝ) * 100000000 ≤ y * (SKn:ℝ) :=
    (le_div_iff (by norm_num : (0:ℝ) < 100000000)).1 h3
  linarith

theorem up_branch (U P : ℕ) (y : ℝ) (hPU : P ≤ U)
    (hUP : y * (SKn:ℝ) ^ 5 ≤ (U:ℝ) - (P:ℝ)) :
    y / 100000000 ≤ (((U - P) / ESK4n + 1 : ℕ) : ℝ) / (SKn:ℝ) := by
  have hS : (0:ℝ) < (SKn:ℝ) := SKn_pos
  have hE : (0:ℕ) < ESK4n := by norm_num [ESK4n]
  have h1 : ((U - P : ℕ) : ℝ) / (ESK4n : ℝ) < (((U - P) / ESK4n : ℕ) : ℝ) + 1 :=
    natDiv_cast_lt _ _ hE
  have h2 : y * (SKn:ℝ) ^ 5 ≤ ((U - P : ℕ) : ℝ) := by
    rw [Nat.cast_sub hPU]
    exact hUP
  have h3 : y * (SKn:ℝ) ^ 5 / (ESK4n : ℝ) ≤ ((U - P : ℕ) : ℝ) / (ESK4n : ℝ) :=
    (div_le_div_right ESK4n_pos).2 h2
  have h4 : y * (SKn:ℝ) ^ 5 / (ESK4n : ℝ) = y * (SKn:ℝ) / 100000000 := by
    rw [ESK4n_eq]
    field_simp
    ring
  have h5 : y * (SKn:ℝ) / 100000000 < (((U - P) / ESK4n : ℕ) : ℝ) + 1 := by
    rw [← h4]
    linarith
  rw [div_le_div_iff (by norm_num : (0:ℝ) < 100000000) hS]
  have h6 : y * (SKn:ℝ) < ((((U - P) / ESK4n : ℕ) : ℝ) + 1) * 100000000 :=
    (div_lt_iff (by norm_num : (0:ℝ) < 100000000)).1 h5
  push_cast
  linarith

theorem phiStepN_sound (a bp c l h : ℕ) (t : ℝ)
    (htl : (l:ℝ) / (SKn:ℝ) ≤ t) (hth : t ≤ (h:ℝ) / (SKn:ℝ)) :
    ((phiStepN a bp c l h).1 : ℝ) / (SKn:ℝ) ≤ phiRN a bp c t ∧
      phiRN a bp c t ≤ ((phiStepN a bp c l h).2 : ℝ) / (SKn:ℝ) := by
  have hS : (0:ℝ) < (SKn:ℝ) := SKn_pos
  have hlh : l ≤ h := by
    have h1 : (l:ℝ) / (SKn:ℝ) ≤ (h:ℝ) / (SKn:ℝ) := le_trans htl hth
    have h2 : (l:ℝ) ≤ (h:ℝ) := by
      rw [div_le_div_iff hS hS] at h1
      nlinarith [h1]
    exact_mod_cast h2
  have ht0 : 0 ≤ t := le_trans (div_nonneg (Nat.cast_nonneg l) (le_of_lt hS)) htl
  have hphi0 : 0 ≤ phiRN a bp c t := mul_nonneg ht0 (sq_nonneg _)
  have hy0 : 0 ≤ polyE a bp c t := by
    have he := phiRN_eq_polyE a bp c t
    nlinarith [hphi0]
  have hU1 := step_upper_l a bp c l h t hlh htl hth
  have hU2 := step_upper_h a bp c l h t hlh htl hth
  have hL1 := step_lower_l a bp c l h t hlh htl hth
  have hL2 := step_lower_h a bp c l h t hlh htl hth
  rw [phiStepN_eq]
  constructor
  · rw [phiRN_eq_polyE]
    show ((fDn a bp c l h : ℕ) : ℝ) / (SKn:ℝ) ≤ polyE a bp c t / 100000000
    unfold fDn
    cases hb : Nat.ble (fPP a bp c l + fDM2 a bp c l h) (fPP a bp c h + fDM1 a bp c l h) with
    | false =>
      simp only [cond_false]
      exact dn_branch (fPP a bp c l) (fDM1 a bp c l h) (polyE a bp c t) hy0 hL1
    | true =>
      simp only [cond_true]
      exact dn_branch (fPP a bp c h) (fDM2 a bp c l h) (polyE a bp c t) hy0 hL2
  · rw [phiRN_eq_polyE]
    show polyE a bp c t / 100000000 ≤ ((fUp a bp c l h : ℕ) : ℝ) / (SKn:ℝ)
    unfold fUp
    cases hb1 : Nat.ble (fUP1 a bp c l h + fPM a bp c h) (fUP2 a bp c l h + fPM a bp c l) with
    | false =>
      simp only [cond_false]
      cases hb2 : Nat.ble (fPM a bp c h) (fUP2 a bp c l h) with
      | false =>
        simp only [cond_false]
        have hlt := ble_false_lt _ _ hb2
        have hcast : ((fUP2 a bp c l h : ℕ) : ℝ) < ((fPM a bp c h : ℕ) : ℝ) := by
          exact_mod_cast hlt
        have hneg : polyE a bp c t * (SKn:ℝ) ^ 5 < 0 := by linarith
        have : polyE a bp c t ≤ 0 := by nlinarith [pow_pos hS 5]
        simp only [Nat.cast_zero, zero_div]
        linarith
      | true =>
        simp only [cond_true]
        exact up_branch (fUP2 a bp c l h) (fPM a bp c h) (polyE a bp c t)
          (Nat.le_of_ble_eq_true hb2) hU2
    | true =>
      simp only [cond_true]
      cases hb2 : Nat.ble (fPM a bp c l) (fUP1 a bp c l h) with
      | false =>
        simp only [cond_false]
        have hlt := ble_false_lt _ _ hb2
        have hcast : ((fUP1 a bp c l h : ℕ) : ℝ) < ((fPM a bp c l : ℕ) : ℝ) := by
          exact_mod_cast hlt
        have hneg : polyE a bp c t * (SKn:ℝ) ^ 5 < 0 := by linarith
        have : polyE a bp c t ≤ 0 := by nlinarith [pow_pos hS 5]
        simp only [Nat.cast_zero, zero_div]
        linarith
      | true =>
        simp only [cond_true]
        exact up_branch (fUP1 a bp c l h) (fPM a bp c l) (polyE a bp c t)
          (Nat.le_of_ble_eq_true hb2) hU1

theorem phiChainN_sound (l h : ℕ) (t : ℝ)
    (htl : (l:ℝ) / (SKn:ℝ) ≤ t) (hth : t ≤ (h:ℝ) / (SKn:ℝ)) :
    ((phiChainN l h).1 : ℝ) / (SKn:ℝ) ≤ phiChainRN t ∧
      phiChainRN t ≤ ((phiChainN l h).2 : ℝ) / (SKn:ℝ) := by
  unfold phiChainN phiChainRN
  simp only [forcePair_eq]
  have h1 := phiStepN_sound 40848 68946 29270 l h t htl hth
  have h2 := phiStepN_sound 39505 63029 26377 (phiStepN 40848 68946 29270 l h).1
    (phiStepN 40848 68946 29270 l h).2 (phiRN 40848 68946 29270 t) h1.1 h1.2
  have h3 := phiStepN_sound 37418 55913 23037 _ _
    (phiRN 39505 63029 26377 (phiRN 40848 68946 29270 t)) h2.1 h2.2
  have h4 := phiStepN_sound 28769 31427 12046 _ _
    (phiRN 37418 55913 23037 (phiRN 39505 63029 26377 (phiRN 40848 68946 29270 t)))
    h3.1 h3.2
  have h5 := phiStepN_sound 28366 30525 12012 _ _
    (phiRN 28769 31427 12046 (phiRN 37418 55913 23037
      (phiRN 39505 63029 26377 (phiRN 40848 68946 29270 t)))) h4.1 h4.2
  exact h5

theorem chain_pair_bound (x y : ℕ)
    (hble : (phiChainN x y).2 * 10000 ≤ 13225 * SKn) (t : ℝ)
    (ht1 : (x:ℝ) / (SKn:ℝ) ≤ t) (ht2 : t ≤ (y:ℝ) / (SKn:ℝ)) :
    phiChainRN t ≤ 13225 / 10000 := by
  have hS : (0:ℝ) < (SKn:ℝ) := SKn_pos
  have h1 := (phiChainN_sound x y t ht1 ht2).2
  have h2 : ((phiChainN x y).2 : ℝ) * 10000 ≤ 13225 * (SKn:ℝ) := by
    exact_mod_cast hble
  have h3 : ((phiChainN x y).2 : ℝ) / (SKn:ℝ) ≤ 13225 / 10000 := by
    rw [div_le_div_iff hS (by norm_num : (0:ℝ) < 10000)]
    linarith
  linarith

theorem checkLeavesN_sound : ∀ (xs : List ℕ), checkLeavesN xs = true →
    ∀ t : ℝ, 2 ≤ xs.length → ((xs.headD 0 : ℕ) : ℝ) / (SKn:ℝ) ≤ t →
    t ≤ ((xs.getLastD 0 : ℕ) : ℝ) / (SKn:ℝ) → phiChainRN t ≤ 13225 / 10000 := by
  intro xs
  induction xs with
  | nil =>
    intro _ t hlen
    simp at hlen
  | cons x xs ih =>
    intro hchk t hlen ht1 ht2
    cases xs with
    | nil =>
      simp at hlen
    | cons y rest =>
      have hchk1 : checkLeavesN (x :: y :: rest)
          = cond (Nat.ble ((phiChainN x y).2 * 10000) (13225 * SKn))
              (checkLeavesN (y :: rest)) false := rfl
      rw [hchk1] at hchk
      cases hb : Nat.ble ((phiChainN x y).2 * 10000) (13225 * SKn) with
      | false =>
        rw [hb] at hchk
        simp at hchk
      | true =>
        rw [hb] at hchk
        simp only [cond_true] at hchk
        have hble := Nat.le_of_ble_eq_true hb
        have hhead : (x :: y :: rest).headD 0 = x := rfl
        rw [hhead] at ht1
        cases rest with
        | nil =>
          have hlast : (x :: y :: ([] : List ℕ)).getLastD 0 = y := rfl
          rw [hlast] at ht2
          exact chain_pair_bound x y hble t ht1 ht2
        | cons z zs =>
          rcases le_or_lt t ((y:ℝ) / (SKn:ℝ)) with hc | hc
          · exact chain_pair_bound x y hble t ht1 hc
          · apply ih hchk t (by simp)
            · have : (y :: z :: zs).headD 0 = y := rfl
              rw [this]
              exact le_of_lt hc
            · have : (x :: y :: z :: zs).getLastD 0 = (y :: z :: zs).getLastD 0 := by
                simp [List.getLastD_cons]
              rw [← this]
              exact ht2

theorem phiRN_nonneg (a bp c : ℕ) (t : ℝ) (h0 : 0 ≤ t) : 0 ≤ phiRN a bp c t :=
  mul_nonneg h0 (sq_nonneg _)

theorem phiRN_le_mul (a bp c K : ℕ) (hq : bp * bp ≤ 4 * (a * c)) (hcb : c ≤ bp)
    (hc0 : 0 < c) (hK : a * a ≤ K * 100000000) (t : ℝ) (h0 : 0 ≤ t) (h1 : t ≤ 1) :
    phiRN a bp c t ≤ (K : ℝ) * t := by
  have hqr : ((bp:ℝ) * (bp:ℝ)) ≤ 4 * ((a:ℝ) * (c:ℝ)) := by exact_mod_cast hq
  have hcbr : (c:ℝ) ≤ (bp:ℝ) := by exact_mod_cast hcb
  have hc0r : (0:ℝ) < (c:ℝ) := by exact_mod_cast hc0
  have hanr : (0:ℝ) ≤ (a:ℝ) := Nat.cast_nonneg a
  have hqnn : 0 ≤ (a:ℝ) - (bp:ℝ) * t + (c:ℝ) * t ^ 2 := by
    nlinarith [sq_nonneg (2 * (c:ℝ) * t - (bp:ℝ)), hqr, hc0r]
  have hct : (c:ℝ) * t ≤ (bp:ℝ) := by nlinarith [hc0r]
  have hct2 : (c:ℝ) * t * t ≤ (bp:ℝ) * t := mul_le_mul_of_nonneg_right hct h0
  have hqle : (a:ℝ) - (bp:ℝ) * t + (c:ℝ) * t ^ 2 ≤ (a:ℝ) := by nlinarith [hct2]
  have hsq : ((a:ℝ) - (bp:ℝ) * t + (c:ℝ) * t ^ 2) ^ 2 ≤ (a:ℝ) ^ 2 :=
    sq_le_sq' (by linarith) hqle
  have key : phiRN a bp c t = t * ((a:ℝ) - (bp:ℝ) * t + (c:ℝ) * t ^ 2) ^ 2 / 100000000 := by
    unfold phiRN
    rw [show (a:ℝ) / 10000 - (bp:ℝ) / 10000 * t + (c:ℝ) / 10000 * t ^ 2
        = ((a:ℝ) - (bp:ℝ) * t + (c:ℝ) * t ^ 2) / 10000 from by ring]
    rw [div_pow, show ((10000:ℝ)) ^ 2 = 100000000 from by norm_num]
    ring
  have h5 : t * ((a:ℝ) - (bp:ℝ) * t + (c:ℝ) * t ^ 2) ^ 2 ≤ t * (a:ℝ) ^ 2 :=
    mul_le_mul_of_nonneg_left hsq h0
  have h6 : (a:ℝ) * (a:ℝ) ≤ (K:ℝ) * 100000000 := by exact_mod_cast hK
  have h7 : t * ((a:ℝ) * (a:ℝ)) ≤ t * ((K:ℝ) * 100000000) :=
    mul_le_mul_of_nonneg_left h6 h0
  rw [key, div_le_iff (by norm_num : (0:ℝ) < 100000000)]
  nlinarith [h5, h7]

theorem phiChainRN_small (t : ℝ) (h0 : 0 ≤ t) (h1 : t ≤ 1 / 262144) :
    phiChainRN t ≤ 13225 / 10000 := by
  have ht1 : t ≤ 1 := by linarith
  have s1le := phiRN_le_mul 40848 68946 29270 17 (by norm_num) (by norm_num)
    (by norm_num) (by norm_num) t h0 ht1
  push_cast at s1le
  have s1nn := phiRN_nonneg 40848 68946 29270 t h0
  have s1ub : phiRN 40848 68946 29270 t ≤ 1 := by
    have : (17:ℝ) * t ≤ 1 := by linarith
    linarith
  have s2le := phiRN_le_mul 39505 63029 26377 16 (by norm_num) (by norm_num)
    (by norm_num) (by norm_num) (phiRN 40848 68946 29270 t) s1nn s1ub
  push_cast at s2le
  have s2nn := phiRN_nonneg 39505 63029 26377 (phiRN 40848 68946 29270 t) s1nn
  have s2b : phiRN 39505 63029 26377 (phiRN 40848 68946 29270 t) ≤ 272 * t := by
    linarith
  have s2ub : phiRN 39505 63029 26377 (phiRN 40848 68946 29270 t) ≤ 1 := by
    have : (272:ℝ) * t ≤ 1 := by linarith
    linarith
  have s3le := phiRN_le_mul 37418 55913 23037 15 (by norm_num) (by norm_num)
    (by norm_num) (by norm_num)
    (phiRN 39505 63029 26377 (phiRN 40848 68946 29270 t)) s2nn s2ub
  push_cast at s3le
  have s3nn := phiRN_nonneg 37418 55913 23037
    (phiRN 39505 63029 26377 (phiRN 40848 68946 29270 t)) s2nn
  have s3b : phiRN 37418 55913 23037
      (phiRN 39505 63029 26377 (phiRN 40848 68946 29270 t)) ≤ 4080 * t := by
    linarith
  have s3ub : phiRN 37418 55913 23037
      (phiRN 39505 63029 26377 (phiRN 40848 68946 29270 t)) ≤ 1 := by
    have : (4080:ℝ) * t ≤ 1 := by linarith
    linarith
  have s4le := phiRN_le_mul 28769 31427 12046 9 (by norm_num) (by norm_num)
    (by norm_num) (by norm_num)
    (phiRN 37418 55913 23037 (phiRN 39505 63029 26377 (phiRN 40848 68946 29270 t)))
    s3nn s3ub
  push_cast at s4le
  have s4nn := phiRN_nonneg 28769 31427 12046
    (phiRN 37418 55913 23037 (phiRN 39505 63029 26377 (phiRN 40848 68946 29270 t))) s3nn
  have s4b : phiRN 28769 31427 12046 (phiRN 37418 55913 23037
      (phiRN 39505 63029 26377 (phiRN 40848 68946 29270 t))) ≤ 36720 * t := by
    linarith
  have s4ub : phiRN 28769 31427 12046 (phiRN 37418 55913 23037
      (phiRN 39505 63029 26377 (phiRN 40848 68946 29270 t))) ≤ 1 := by
    have : (36720:ℝ) * t ≤ 1 := by linarith
    linarith
  have s5le := phiRN_le_mul 28366 30525 12012 9 (by norm_num) (by norm_num)
    (by norm_num) (by norm_num)
    (phiRN 28769 31427 12046 (phiRN 37418 55913 23037
      (phiRN 39505 63029 26377 (phiRN 40848 68946 29270 t)))) s4nn s4ub
  push_cast at s5le
  show phiRN 28366 30525 12012 (phiRN 28769 31427 12046 (phiRN 37418 55913 23037
    (phiRN 39505 63029 26377 (phiRN 40848 68946 29270 t)))) ≤ 13225 / 10000
  have s5b : phiRN 28366 30525 12012 (phiRN 28769 31427 12046 (phiRN 37418 55913 23037
      (phiRN 39505 63029 26377 (phiRN 40848 68946 29270 t)))) ≤ 330480 * t := by
    linarith
  have : (330480:ℝ) * t ≤ 330480 / 262144 := by linarith
  linarith

theorem nsStep_eq_mul {m n : ℕ} (a b c : ℝ) (X : Matrix (Fin m) (Fin n) ℝ) :
    nsStep a b c X
      = X * (a • (1 : Matrix (Fin n) (Fin n) ℝ) + b • (Xᵀ * X)
          + c • ((Xᵀ * X) * (Xᵀ * X))) := by
  unfold nsStep
  rw [Matrix.mul_add, Matrix.mul_add, Matrix.mul_smul, Matrix.mul_smul,
    Matrix.mul_smul, Matrix.mul_one, Matrix.add_mul, Matrix.smul_mul,
    Matrix.smul_mul]
  simp only [Matrix.mul_assoc]
  abel

theorem nsStep_eigen {m n : ℕ} (a b c : ℝ) (X : Matrix (Fin m) (Fin n) ℝ)
    (v : Fin n → ℝ) (lam : ℝ) (hv : (Xᵀ * X) *ᵥ v = lam • v) :
    ((nsStep a b c X)ᵀ * nsStep a b c X) *ᵥ v
      = (lam * (a + b * lam + c * lam ^ 2) ^ 2) • v := by
  have hPt : (a • (1 : Matrix (Fin n) (Fin n) ℝ) + b • (Xᵀ * X)
      + c • ((Xᵀ * X) * (Xᵀ * X)))ᵀ
      = a • (1 : Matrix (Fin n) (Fin n) ℝ) + b • (Xᵀ * X)
        + c • ((Xᵀ * X) * (Xᵀ * X)) := by
    simp [Matrix.transpose_add, Matrix.transpose_smul, Matrix.transpose_mul,
      Matrix.transpose_transpose, Matrix.mul_assoc]
  have hPv : (a • (1 : Matrix (Fin n) (Fin n) ℝ) + b • (Xᵀ * X)
      + c • ((Xᵀ * X) * (Xᵀ * X))) *ᵥ v = (a + b * lam + c * lam ^ 2) • v := by
    rw [Matrix.add_mulVec, Matrix.add_mulVec]
    rw [Matrix.smul_mulVec_assoc, Matrix.smul_mulVec_assoc, Matrix.smul_mulVec_assoc]
    rw [Matrix.one_mulVec, hv]
    rw [← Matrix.mulVec_mulVec, hv, Matrix.mulVec_smul, hv]
    funext i
    simp [Pi.add_apply, Pi.smul_apply]
    ring
  rw [nsStep_eq_mul, Matrix.transpose_mul, hPt]
  rw [show (a • (1 : Matrix (Fin n) (Fin n) ℝ) + b • (Xᵀ * X)
        + c • ((Xᵀ * X) * (Xᵀ * X))) * Xᵀ
      * (X * (a • (1 : Matrix (Fin n) (Fin n) ℝ) + b • (Xᵀ * X)
        + c • ((Xᵀ * X) * (Xᵀ * X))))
      = (a • (1 : Matrix (Fin n) (Fin n) ℝ) + b • (Xᵀ * X)
        + c • ((Xᵀ * X) * (Xᵀ * X)))
        * ((Xᵀ * X) * (a • (1 : Matrix (Fin n) (Fin n) ℝ) + b • (Xᵀ * X)
          + c • ((Xᵀ * X) * (Xᵀ * X)))) from by
    simp only [Matrix.mul_assoc]]
  rw [← Matrix.mulVec_mulVec, ← Matrix.mulVec_mulVec]
  rw [hPv, Matrix.mulVec_smul, hv, smul_smul, Matrix.mulVec_smul, hPv, smul_smul]
  congr 1
  ring

theorem nsIterate_eq {m n : ℕ} (X : Matrix (Fin m) (Fin n) ℝ) :
    nsIterate X = nsStep 2.8366 (-3.0525) 1.2012 (nsStep 2.8769 (-3.1427) 1.2046
      (nsStep 3.7418 (-5.5913) 2.3037 (nsStep 3.9505 (-6.3029) 2.6377
        (nsStep 4.0848 (-6.8946) 2.9270 X)))) := rfl

theorem nsIterate_eigen {m n : ℕ} (X : Matrix (Fin m) (Fin n) ℝ) (v : Fin n → ℝ)
    (lam : ℝ) (hv : (Xᵀ * X) *ᵥ v = lam • v) :
    ((nsIterate X)ᵀ * nsIterate X) *ᵥ v = phiChainRN lam • v := by
  rw [nsIterate_eq]
  have h1 := nsStep_eigen 4.0848 (-6.8946) 2.9270 X v lam hv
  have e1 : lam * (4.0848 + -6.8946 * lam + 2.9270 * lam ^ 2) ^ 2
      = phiRN 40848 68946 29270 lam := by
    unfold phiRN
    norm_num
    left
    ring
  rw [e1] at h1
  have h2 := nsStep_eigen 3.9505 (-6.3029) 2.6377 _ v _ h1
  have e2 : ∀ u : ℝ, u * (3.9505 + -6.3029 * u + 2.6377 * u ^ 2) ^ 2
      = phiRN 39505 63029 26377 u := by
    intro u
    unfold phiRN
    norm_num
    left
    ring
  rw [e2] at h2
  have h3 := nsStep_eigen 3.7418 (-5.5913) 2.3037 _ v _ h2
  have e3 : ∀ u : ℝ, u * (3.7418 + -5.5913 * u + 2.3037 * u ^ 2) ^ 2
      = phiRN 37418 55913 23037 u := by
    intro u
    unfold phiRN
    norm_num
    left
    ring
  rw [e3] at h3
  have h4 := nsStep_eigen 2.8769 (-3.1427) 1.2046 _ v _ h3
  have e4 : ∀ u : ℝ, u * (2.8769 + -3.1427 * u + 1.2046 * u ^ 2) ^ 2
      = phiRN 28769 31427 12046 u := by
    intro u
    unfold phiRN
    norm_num
    left
    ring
  rw [e4] at h4
  have h5 := nsStep_eigen 2.8366 (-3.0525) 1.2012 _ v _ h4
  have e5 : ∀ u : ℝ, u * (2.8366 + -3.0525 * u + 1.2012 * u ^ 2) ^ 2
      = phiRN 28366 30525 12012 u := by
    intro u
    unfold phiRN
    norm_num
    left
    ring
  rw [e5] at h5
  exact h5

theorem dotProduct_self_nonneg {n : ℕ} (v : Fin n → ℝ) : 0 ≤ v ⬝ᵥ v :=
  Finset.sum_nonneg fun i _ => mul_self_nonneg (v i)

theorem mulVec_dot_le {m n : ℕ} (X : Matrix (Fin m) (Fin n) ℝ) (v : Fin n → ℝ) :
    (X *ᵥ v) ⬝ᵥ (X *ᵥ v) ≤ frobeniusNormSq X * (v ⬝ᵥ v) := by
  have hrow : ∀ i, ((X *ᵥ v) i) ^ 2 ≤ (∑ j, (X i j) ^ 2) * (∑ j, (v j) ^ 2) := by
    intro i
    have h := Finset.sum_mul_sq_le_sq_mul_sq Finset.univ (fun j => X i j) (fun j => v j)
    simpa [Matrix.mulVec, dotProduct] using h
  calc (X *ᵥ v) ⬝ᵥ (X *ᵥ v) = ∑ i, ((X *ᵥ v) i) ^ 2 := by
        simp [dotProduct, sq]
    _ ≤ ∑ i, (∑ j, (X i j) ^ 2) * (∑ j, (v j) ^ 2) :=
        Finset.sum_le_sum fun i _ => hrow i
    _ = (∑ i, ∑ j, (X i j) ^ 2) * (∑ j, (v j) ^ 2) := by
        rw [← Finset.sum_mul]
    _ = frobeniusNormSq X * (v ⬝ᵥ v) := by
        unfold frobeniusNormSq
        simp [dotProduct, sq]

theorem eigen_nonneg_le {m n : ℕ} (X : Matrix (Fin m) (Fin n) ℝ) (v : Fin n → ℝ)
    (lam : ℝ) (hv0 : v ≠ 0) (hv : (Xᵀ * X) *ᵥ v = lam • v) :
    0 ≤ lam ∧ lam ≤ frobeniusNormSq X := by
  have hvv : 0 < v ⬝ᵥ v :=
    lt_of_le_of_ne (dotProduct_self_nonneg v)
      (fun h => hv0 (Matrix.dotProduct_self_eq_zero.1 h.symm))
  have key : v ⬝ᵥ ((Xᵀ * X) *ᵥ v) = (X *ᵥ v) ⬝ᵥ (X *ᵥ v) := by
    rw [← Matrix.mulVec_mulVec, Matrix.dotProduct_mulVec, Matrix.vecMul_transpose]
  have hl : v ⬝ᵥ ((Xᵀ * X) *ᵥ v) = lam * (v ⬝ᵥ v) := by
    rw [hv]
    unfold dotProduct
    rw [Finset.mul_sum]
    apply Finset.sum_congr rfl
    intro i _
    simp [Pi.smul_apply]
    ring
  constructor
  · have h2 : 0 ≤ lam * (v ⬝ᵥ v) := by
      rw [← hl, key]
      exact dotProduct_self_nonneg _
    nlinarith [hvv]
  · have h3 : lam * (v ⬝ᵥ v) ≤ frobeniusNormSq X * (v ⬝ᵥ v) := by
      rw [← hl, key]
      exact mulVec_dot_le X v
    nlinarith [hvv]

theorem frobeniusNormSq_nonneg {m n : ℕ} (M : Matrix (Fin m) (Fin n) ℝ) :
    0 ≤ frobeniusNormSq M :=
  Finset.sum_nonneg fun i _ => Finset.sum_nonneg fun j _ => sq_nonneg (M i j)

theorem frobSq_nsNormalize_le_one {m n : ℕ} (M : Matrix (Fin m) (Fin n) ℝ) :
    frobeniusNormSq (nsNormalize M) ≤ 1 := by
  have h0 : 0 ≤ frobeniusNormSq M := frobeniusNormSq_nonneg M
  have hF : 0 ≤ frobeniusNorm M := Real.sqrt_nonneg _
  have hF2 : frobeniusNorm M ^ 2 = frobeniusNormSq M := Real.sq_sqrt h0
  have heps : (0:ℝ) < 1e-7 := by norm_num
  have hden : 0 < frobeniusNorm M + 1e-7 := by linarith
  have hsmul : frobeniusNormSq (nsNormalize M)
      = (1 / (frobeniusNorm M + 1e-7)) ^ 2 * frobeniusNormSq M := by
    unfold nsNormalize frobeniusNormSq
    simp [Matrix.smul_apply, mul_pow, Finset.mul_sum]
  rw [hsmul, ← hF2]
  rw [show (1 / (frobeniusNorm M + 1e-7)) ^ 2 * frobeniusNorm M ^ 2
      = (frobeniusNorm M / (frobeniusNorm M + 1e-7)) ^ 2 from by ring]
  apply pow_le_one
  · positivity
  · rw [div_le_one hden]
    linarith

set_option maxRecDepth 4000 in
theorem phiChainRN_le (t : ℝ) (h0 : 0 ≤ t) (h1 : t ≤ 1) :
    phiChainRN t ≤ 13225 / 10000 := by
  rcases le_or_lt t (1 / 262144) with hc | hc
  · exact phiChainRN_small t h0 hc
  · apply checkLeavesN_sound phiPartition phiPartition_check t
    · decide
    · rw [show phiPartition.headD 0 = 4194304 from rfl]
      have he : ((4194304:ℕ):ℝ) / (SKn:ℝ) = 1 / 262144 := by norm_num [SKn]
      rw [he]
      exact le_of_lt hc
    · rw [show phiPartition.getLastD 0 = SKn from rfl]
      rw [div_self (ne_of_gt SKn_pos)]
      exact h1

theorem orthogonalizeCore_eigen_le {r c : ℕ} (M : Matrix (Fin r) (Fin c) ℝ)
    (v : Fin c → ℝ) (lam : ℝ) (hv0 : v ≠ 0)
    (hv : ((orthogonalizeCore M)ᵀ * orthogonalizeCore M) *ᵥ v = lam • v) :
    lam ≤ 13225 / 10000 := by
  have hherm : ((nsNormalize M)ᵀ * nsNormalize M).IsHermitian := by
    have h := Matrix.isHermitian_transpose_mul_self (nsNormalize M)
    rwa [Matrix.conjTranspose_eq_transpose_of_trivial] at h
  have hSb : ∀ i, ((nsNormalize M)ᵀ * nsNormalize M) *ᵥ (hherm.eigenvectorBasis i)
      = hherm.eigenvalues i • (hherm.eigenvectorBasis i) :=
    fun i => hherm.mulVec_eigenvectorBasis i
  have hbne : ∀ i, (hherm.eigenvectorBasis i : Fin c → ℝ) ≠ 0 := by
    intro i hne
    have h1 := hherm.eigenvectorBasis.orthonormal.1 i
    rw [show hherm.eigenvectorBasis i = 0 from hne] at h1
    simp at h1
  have hTb : ∀ i, ((nsIterate (nsNormalize M))ᵀ * nsIterate (nsNormalize M)) *ᵥ
        (hherm.eigenvectorBasis i)
      = phiChainRN (hherm.eigenvalues i) • (hherm.eigenvectorBasis i) :=
    fun i => nsIterate_eigen (nsNormalize M) _ _ (hSb i)
  have hTsym : ((nsIterate (nsNormalize M))ᵀ * nsIterate (nsNormalize M))ᵀ
      = (nsIterate (nsNormalize M))ᵀ * nsIterate (nsNormalize M) := by
    rw [Matrix.transpose_mul, Matrix.transpose_transpose]
  by_contra hcon
  push_neg at hcon
  have hall : ∀ i, (hherm.eigenvectorBasis i : Fin c → ℝ) ⬝ᵥ v = 0 := by
    intro i
    have hmu := eigen_nonneg_le (nsNormalize M) _ _ (hbne i) (hSb i)
    have hPhi : phiChainRN (hherm.eigenvalues i) ≤ 13225 / 10000 :=
      phiChainRN_le _ hmu.1 (le_trans hmu.2 (frobSq_nsNormalize_le_one M))
    have h1 : (hherm.eigenvectorBasis i : Fin c → ℝ)
        ⬝ᵥ (((orthogonalizeCore M)ᵀ * orthogonalizeCore M) *ᵥ v)
        = lam * ((hherm.eigenvectorBasis i : Fin c → ℝ) ⬝ᵥ v) := by
      rw [hv]
      unfold dotProduct
      rw [Finset.mul_sum]
      apply Finset.sum_congr rfl
      intro j _
      simp [Pi.smul_apply]
      ring
    have h2 : (hherm.eigenvectorBasis i : Fin c → ℝ)
        ⬝ᵥ (((orthogonalizeCore M)ᵀ * orthogonalizeCore M) *ᵥ v)
        = phiChainRN (hherm.eigenvalues i)
            * ((hherm.eigenvectorBasis i : Fin c → ℝ) ⬝ᵥ v) := by
      rw [Matrix.dotProduct_mulVec]
      have hvm : (hherm.eigenvectorBasis i : Fin c → ℝ)
          ᵥ* ((orthogonalizeCore M)ᵀ * orthogonalizeCore M)
          = phiChainRN (hherm.eigenvalues i) • (hherm.eigenvectorBasis i : Fin c → ℝ) := by
        have := hTb i
        rw [show ((orthogonalizeCore M)ᵀ * orthogonalizeCore M)
            = ((nsIterate (nsNormalize M))ᵀ * nsIterate (nsNormalize M)) from rfl]
        rw [← hTsym, Matrix.vecMul_transpose]
        exact this
      rw [hvm]
      unfold dotProduct
      rw [Finset.mul_sum]
      apply Finset.sum_congr rfl
      intro j _
      simp [Pi.smul_apply]
      ring
    have h5 : lam * ((hherm.eigenvectorBasis i : Fin c → ℝ) ⬝ᵥ v)
        = phiChainRN (hherm.eigenvalues i)
            * ((hherm.eigenvectorBasis i : Fin c → ℝ) ⬝ᵥ v) := h1.symm.trans h2
    have h6 : (lam - phiChainRN (hherm.eigenvalues i))
        * ((hherm.eigenvectorBasis i : Fin c → ℝ) ⬝ᵥ v) = 0 := by
      rw [sub_mul, h5, sub_self]
    rcases mul_eq_zero.1 h6 with h7 | h7
    · exfalso
      have := sub_eq_zero.1 h7
      linarith
    · exact h7
  have hcoord : ∀ i, hherm.eigenvectorBasis.repr
      ((WithLp.equiv 2 (Fin c → ℝ)).symm v) i = 0 := by
    intro i
    rw [OrthonormalBasis.repr_apply_apply, PiLp.inner_apply]
    have h := hall i
    simpa [dotProduct] using h
  have hsum := hherm.eigenvectorBasis.sum_repr ((WithLp.equiv 2 (Fin c → ℝ)).symm v)
  have hz : (WithLp.equiv 2 (Fin c → ℝ)).symm v = 0 := by
    rw [← hsum]
    apply Finset.sum_eq_zero
    intro j _
    rw [hcoord j]
    simp
  apply hv0
  have hvv : v = (WithLp.equiv 2 (Fin c → ℝ)) ((WithLp.equiv 2 (Fin c → ℝ)).symm v) := by
    simp
  rw [hvv, hz]
  simp

/-- Claim C4 (corrected): the spec says every singular value of
`orthogonalize(G)` is at most `1 + tolerance`, "without ever exceeding 1".
In fact the quintic iteration overshoots: its eigenvalue map `Φ` on `[0, 1]`
attains values up to `≈ 1.3111 = 1.14502²` (the code comment on line 273 of
the source cites the constant `1.14502`), so singular values reach `≈ 1.145`.
What is true is the amended bound: every singular value of
`orthogonalize(G)` is at most `1.15`, for every input matrix `G`.  Proved by
the verified interval-arithmetic certificate `phiPartition_check`
(`Φ ≤ 1.3225 = 1.15²` on the 431-leaf partition of `[2⁻¹⁸, 1]`), the
analytic small-eigenvalue bound `phiChainRN_small` on `[0, 2⁻¹⁸]`, and the
spectral theorem applied to `XᵀX`. -/
theorem orthogonalize_singular_le {m n : ℕ} (G : Matrix (Fin m) (Fin n) ℝ) (σ : ℝ)
    (hσ : IsSingularValue (orthogonalize G) σ) : σ ≤ 1.15 := by
  obtain ⟨hσ0, v, hv0, hv⟩ := hσ
  by_cases hz : σ = 0
  · rw [hz]
    norm_num
  have hs2 : 0 < σ ^ 2 := by positivity
  have hle : σ ^ 2 ≤ 13225 / 10000 := by
    by_cases hnm : n < m
    · rw [orthogonalize, if_pos hnm, Matrix.transpose_transpose] at hv
      have hw : ((orthogonalizeCore Gᵀ)ᵀ * orthogonalizeCore Gᵀ) *ᵥ
          ((orthogonalizeCore Gᵀ)ᵀ *ᵥ v)
          = σ ^ 2 • ((orthogonalizeCore Gᵀ)ᵀ *ᵥ v) := by
        rw [← Matrix.mulVec_mulVec]
        rw [Matrix.mulVec_mulVec v (orthogonalizeCore Gᵀ) ((orthogonalizeCore Gᵀ)ᵀ)]
        rw [hv, Matrix.mulVec_smul]
      have hw0 : (orthogonalizeCore Gᵀ)ᵀ *ᵥ v ≠ 0 := by
        intro h
        apply hv0
        have h2 : (orthogonalizeCore Gᵀ * (orthogonalizeCore Gᵀ)ᵀ) *ᵥ v = 0 := by
          rw [← Matrix.mulVec_mulVec, h, Matrix.mulVec_zero]
        rw [hv] at h2
        rcases smul_eq_zero.1 h2 with h3 | h3
        · exact absurd h3 (ne_of_gt hs2)
        · exact h3
      exact orthogonalizeCore_eigen_le Gᵀ _ (σ ^ 2) hw0 hw
    · rw [orthogonalize, if_neg hnm] at hv
      exact orthogonalizeCore_eigen_le G v (σ ^ 2) hv0 hv
  nlinarith [hσ0, hle]

/-- Claim C4, counterexample: for the 1x1 input `G = [[409 · 10⁻¹²]]` the
(unique) singular value of `orthogonalize G` exceeds 1.1, refuting "singular
values compressed toward 1 without ever exceeding 1" for every tolerance
below 0.1.  (After normalization the squared singular value is
`t₀² = (409/100409)² ≈ 1.66·10⁻⁵`, which the five quintic steps blow up to
`Φ(t₀²) ≥ 1.2101`, certified by the checker bound `phiCounterChain`.) -/
theorem orthogonalize_singular_counterexample :
    ∃ σ : ℝ, IsSingularValue
      (orthogonalize (!![409 / 1000000000000] : Matrix (Fin 1) (Fin 1) ℝ)) σ
      ∧ 1.1 < σ := by
  have hble := phiCounterChain
  have horth : orthogonalize (!![(409:ℝ) / 1000000000000])
      = nsIterate (nsNormalize !![(409:ℝ) / 1000000000000]) := by
    unfold orthogonalize
    rw [if_neg (lt_irrefl 1)]
    rfl
  have hX0 : nsNormalize (!![(409:ℝ) / 1000000000000]) = !![(409:ℝ) / 100409] := by
    unfold nsNormalize frobeniusNorm frobeniusNormSq
    rw [show (∑ i, ∑ j, ((!![(409:ℝ) / 1000000000000]) i j) ^ 2)
        = ((409:ℝ) / 1000000000000) ^ 2 from by simp [Fin.sum_univ_one]]
    rw [Real.sqrt_sq (by norm_num)]
    ext i j
    fin_cases i
    fin_cases j
    simp [Matrix.smul_apply]
    norm_num
  have heig : ((!![(409:ℝ) / 100409])ᵀ * !![(409:ℝ) / 100409]) *ᵥ ![(1:ℝ)]
      = ((167281:ℝ) / 10081967281) • ![(1:ℝ)] := by
    funext i
    fin_cases i
    simp [Matrix.mulVec, dotProduct, Matrix.mul_apply, Fin.sum_univ_one,
      Matrix.transpose_apply]
    norm_num
  have happ := nsIterate_eigen (!![(409:ℝ) / 100409]) ![(1:ℝ)]
    ((167281:ℝ) / 10081967281) heig
  have hyy : phiChainRN ((167281:ℝ) / 10081967281)
      = (nsIterate (!![(409:ℝ) / 100409])) 0 0 * (nsIterate (!![(409:ℝ) / 100409])) 0 0 := by
    have h0 := congrFun happ 0
    simp [Matrix.mulVec, dotProduct, Matrix.mul_apply, Fin.sum_univ_one,
      Matrix.transpose_apply] at h0
    linarith [h0]
  have hlo : (18243205:ℝ) / (SKn:ℝ) ≤ (167281:ℝ) / 10081967281 := by
    norm_num [SKn]
  have hhi : (167281:ℝ) / 10081967281 ≤ (18243206:ℝ) / (SKn:ℝ) := by
    norm_num [SKn]
  have hchain := (phiChainN_sound 18243205 18243206 _ hlo hhi).1
  have hble2 : (12101:ℝ) * (SKn:ℝ) ≤ ((phiChainN 18243205 18243206).1 : ℝ) * 10000 := by
    have h := Nat.le_of_ble_eq_true hble
    exact_mod_cast h
  have hphi : (12101:ℝ) / 10000 ≤ phiChainRN ((167281:ℝ) / 10081967281) := by
    have h1 : (12101:ℝ) / 10000 ≤ ((phiChainN 18243205 18243206).1 : ℝ) / (SKn:ℝ) := by
      rw [div_le_div_iff (by norm_num : (0:ℝ) < 10000) SKn_pos]
      linarith
    linarith [hchain]
  refine ⟨|(nsIterate (!![(409:ℝ) / 100409])) 0 0|, ⟨abs_nonneg _, ![(1:ℝ)], ?_, ?_⟩, ?_⟩
  · intro h
    have h2 := congrFun h 0
    simp at h2
  · rw [horth, hX0, happ]
    congr 1
    rw [sq_abs, sq, hyy]
  · have habs := abs_mul_abs_self ((nsIterate (!![(409:ℝ) / 100409])) 0 0)
    by_contra hcon
    push_neg at hcon
    have h1 : |(nsIterate (!![(409:ℝ) / 100409])) 0 0|
        * |(nsIterate (!![(409:ℝ) / 100409])) 0 0| ≤ 1.1 * 1.1 :=
      mul_le_mul hcon hcon (abs_nonneg _) (by norm_num)
    rw [habs, ← hyy] at h1
    norm_num at h1
    linarith

theorem nsStep_zero (a b c : ℝ) : nsStep a b c (0 : Matrix (Fin 1) (Fin 1) ℝ) = 0 := by
  unfold nsStep
  simp

theorem orthogonalize_zero : orthogonalize (0 : Matrix (Fin 1) (Fin 1) ℝ) = 0 := by
  unfold orthogonalize orthogonalizeCore
  rw [if_neg (lt_irrefl 1)]
  rw [show nsNormalize (0 : Matrix (Fin 1) (Fin 1) ℝ) = 0 from by
    unfold nsNormalize
    simp]
  rw [nsIterate_eq, nsStep_zero, nsStep_zero, nsStep_zero, nsStep_zero, nsStep_zero]

theorem orthogonalize_zero_sv : IsSingularValue (orthogonalize (0 : Matrix (Fin 1) (Fin 1) ℝ)) 0 := by
  refine ⟨le_refl 0, ![(1:ℝ)], ?_, ?_⟩
  · intro h
    have h2 := congrFun h 0
    simp at h2
  · rw [orthogonalize_zero]
    simp

/-- Witness for `orthogonalize_singular_le` at the 1×1 zero matrix, whose
singular value 0 satisfies the bound. -/
theorem orthogonalize_singular_le_witness :
    IsSingularValue (orthogonalize (0 : Matrix (Fin 1) (Fin 1) ℝ)) 0 ∧ (0:ℝ) ≤ 1.15 :=
  ⟨orthogonalize_zero_sv, orthogonalize_singular_le 0 0 orthogonalize_zero_sv⟩

end Spec2Proof
